import Mathlib

/-!
Verification of the MIDIDiff note-extraction / diff / re-encoding engine.

Shallow embedding of `midi_diff/midi_utils.py` and `midi_diff/core.py`:
Python ints are modelled as `Int`; code that can raise returns `Option`.
-/

namespace MidiDiff

/-- Model of the `NoteEvent` frozen dataclass (`midi_utils.py`, lines 24-41).
The four data fields.  The class constants `PITCH_MIN = 0`, `PITCH_MAX = 127`,
`VELOCITY_MIN = 0`, `VELOCITY_MAX = 127` are inlined as literals below. -/
structure NoteEvent where
  pitch : Int
  start : Int
  duration : Int
  velocity : Int
deriving DecidableEq, Repr

/-- The bounds checked by `NoteEvent.__post_init__` via `_validate_int`:
pitch in [0,127], start >= 0, duration >= 1, velocity in [0,127]. -/
def NoteEvent.Valid (n : NoteEvent) : Prop :=
  0 ≤ n.pitch ∧ n.pitch ≤ 127 ∧ 0 ≤ n.start ∧ 1 ≤ n.duration ∧
    0 ≤ n.velocity ∧ n.velocity ≤ 127

instance (n : NoteEvent) : Decidable n.Valid := by
  unfold NoteEvent.Valid; infer_instance

/-- Constructing a `NoteEvent`: `dataclass.__init__` followed by
`__post_init__` (`midi_utils.py`, lines 43-57), which raises `ValueError`
when a field is out of bounds.  A raise is modelled as `none`. -/
def NoteEvent.make (pitch start duration velocity : Int) : Option NoteEvent :=
  if (NoteEvent.mk pitch start duration velocity).Valid
  then some (NoteEvent.mk pitch start duration velocity) else none

/-- `NoteEvent.identity_key` (`midi_utils.py`, lines 93-103):
the `(pitch, start, duration)` triple, velocity excluded. -/
def NoteEvent.identity_key (n : NoteEvent) : Int × Int × Int :=
  (n.pitch, n.start, n.duration)

/-- The `__eq__` generated by `@dataclass(frozen=True)`: it compares the
whole field tuple, velocity included (there is no user-defined `__eq__`
in `midi_utils.py`; `identity_key` is never wired into equality). -/
def NoteEvent.pyEq (a b : NoteEvent) : Bool :=
  a.pitch == b.pitch && a.start == b.start && a.duration == b.duration &&
    a.velocity == b.velocity

/-- The tuple hashed by the `__hash__` generated by
`@dataclass(frozen=True)`: the full field tuple, velocity included. -/
def NoteEvent.pyHashKey (n : NoteEvent) : Int × Int × Int × Int :=
  (n.pitch, n.start, n.duration, n.velocity)

/-! ## The differ (`core.py`, `main`, lines 90-99)

`main` builds `set(extract_notes(mid_a))` and `set(extract_notes(mid_b))`
and takes set differences.  Python sets use the dataclass `__eq__`/`__hash__`
above, i.e. membership is decided by `pyEq` (all four fields).  A Python set
built from a list is modelled as the list deduplicated by `pyEq`. -/

/-- Membership in a Python set of NoteEvents: decided by the dataclass
equality `pyEq`. -/
def pyMem (n : NoteEvent) (l : List NoteEvent) : Bool :=
  l.any (fun m => NoteEvent.pyEq n m)

/-- `set(xs)` for a list of NoteEvents: collapse duplicates under `pyEq`,
keeping first occurrences. -/
def pySet (l : List NoteEvent) : List NoteEvent :=
  l.foldl (fun acc n => if pyMem n acc then acc else acc ++ [n]) []

/-- `only_in_a = notes_a - notes_b`, `only_in_b = notes_b - notes_a`,
`diff_notes = only_in_a | only_in_b` with the two reported counts
(`core.py`, lines 90-99).  Returns (diff members, len only_in_a,
len only_in_b). -/
def diffNotes (a b : List NoteEvent) : List NoteEvent × Nat × Nat :=
  let setA := pySet a
  let setB := pySet b
  let onlyA := setA.filter (fun n => !pyMem n setB)
  let onlyB := setB.filter (fun n => !pyMem n setA)
  (onlyA ++ onlyB, onlyA.length, onlyB.length)

/-- The differ as the SPEC describes it, for comparison: sets keyed by
`identity_key` (velocity ignored). -/
def diffNotesSpec (a b : List NoteEvent) : List NoteEvent × Nat × Nat :=
  let memKey := fun (n : NoteEvent) (l : List NoteEvent) =>
    l.any (fun m => m.identity_key == n.identity_key)
  let setA := a.foldl (fun acc n => if memKey n acc then acc else acc ++ [n]) []
  let setB := b.foldl (fun acc n => if memKey n acc then acc else acc ++ [n]) []
  let onlyA := setA.filter (fun n => !memKey n setB)
  let onlyB := setB.filter (fun n => !memKey n setA)
  (onlyA ++ onlyB, onlyA.length, onlyB.length)

/-! ## The extractor (`midi_utils.py`, `extract_notes`, lines 106-154) -/

/-- Type discriminator of an incoming mido message: `note_on`, `note_off`
or anything else (meta messages, control changes, ...). -/
inductive MsgType where
  | note_on
  | note_off
  | other
deriving DecidableEq, Repr

/-- An incoming mido message as `extract_notes` reads it: its type, note
number, velocity and relative delta time (`msg.time`).  For `other`
messages the note/velocity fields are unused. -/
structure Msg where
  type : MsgType
  note : Int
  velocity : Int
  time : Int
deriving DecidableEq, Repr

/-- mido guarantees for messages read from a MIDI file: note and velocity
are validated into [0,127] and delta times decoded from variable-length
quantities are nonnegative. -/
def Msg.WF (m : Msg) : Prop :=
  0 ≤ m.note ∧ m.note ≤ 127 ∧ 0 ≤ m.velocity ∧ m.velocity ≤ 127 ∧ 0 ≤ m.time

instance (m : Msg) : Decidable m.WF := by
  unfold Msg.WF; infer_instance

/-- The `ongoing` dict: pitch -> stack of `(start_tick, velocity)` pairs,
most recent first (Python appends to the list end and pops the end; here
the head is the most recent). -/
abbrev Ongoing := List (Int × List (Int × Int))

/-- `ongoing.get(p)` with a missing key read as the empty stack
(Python treats a missing key and an empty stack the same way here). -/
def getStack : Ongoing → Int → List (Int × Int)
  | [], _ => []
  | (q, s) :: rest, p => if q = p then s else getStack rest p

/-- Store stack `s` under pitch `p` (overwrite or append the entry). -/
def setStack (d : Ongoing) (p : Int) (s : List (Int × Int)) : Ongoing :=
  match d with
  | [] => [(p, s)]
  | (q, t) :: rest => if q = p then (p, s) :: rest else (q, t) :: setStack rest p s

/-- `ongoing.pop(p, None)`: drop the entry for pitch `p`. -/
def removeKey : Ongoing → Int → Ongoing
  | [], _ => []
  | (q, t) :: rest, p =>
    if q = p then removeKey rest p else (q, t) :: removeKey rest p

/-- Whole per-track loop state: the tick accumulator, the `ongoing` dict
and the notes collected so far. -/
structure ExtractState where
  tick : Int
  ongoing : Ongoing
  notes : List NoteEvent
deriving Repr

/-- One iteration of the message loop (`midi_utils.py`, lines 127-151).
First `tick += msg.time` (for every message type); then note-on with
velocity > 0 pushes, note-off (or note-on with velocity 0) pops, computes
the duration, discards it when <= 0, and otherwise constructs a NoteEvent
(whose validation can raise, modelled by `none`); other types are skipped. -/
def processMsg (st : ExtractState) (msg : Msg) : Option ExtractState :=
  if msg.type = .note_on ∧ msg.velocity > 0 then
    some ⟨st.tick + msg.time, setStack st.ongoing msg.note
      ((st.tick + msg.time, msg.velocity) :: getStack st.ongoing msg.note),
      st.notes⟩
  else if msg.type = .note_off ∨ (msg.type = .note_on ∧ msg.velocity = 0) then
    match getStack st.ongoing msg.note with
    | [] => some ⟨st.tick + msg.time, st.ongoing, st.notes⟩
    | (start, vel) :: rest =>
      if st.tick + msg.time - start ≤ 0 then
        some ⟨st.tick + msg.time,
          if rest.isEmpty then removeKey st.ongoing msg.note
          else setStack st.ongoing msg.note rest, st.notes⟩
      else
        match NoteEvent.make msg.note start (st.tick + msg.time - start) vel with
        | none => none
        | some n => some ⟨st.tick + msg.time,
            if rest.isEmpty then removeKey st.ongoing msg.note
            else setStack st.ongoing msg.note rest, st.notes ++ [n]⟩
  else some ⟨st.tick + msg.time, st.ongoing, st.notes⟩

/-- Run the message loop over one track from a given state. -/
def processTrack (st : ExtractState) : List Msg → Option ExtractState
  | [] => some st
  | m :: ms =>
    match processMsg st m with
    | none => none
    | some st2 => processTrack st2 ms

/-- The outer loop over `mid.tracks`: each track starts from the fresh
state `tick = 0`, `ongoing = {}` (notes still open at end of track are
simply dropped with the state), and the collected notes are concatenated. -/
def extractAll : List (List Msg) → Option (List NoteEvent)
  | [] => some []
  | t :: ts =>
    match processTrack ⟨0, [], []⟩ t with
    | none => none
    | some st =>
      match extractAll ts with
      | none => none
      | some rest => some (st.notes ++ rest)

/-- The comparison behind `notes.sort(key=lambda n: n.start)`. -/
def startLE (a b : NoteEvent) : Prop := a.start ≤ b.start

instance : DecidableRel startLE := fun a b => by unfold startLE; infer_instance

instance : IsTotal NoteEvent startLE := ⟨fun a b => by unfold startLE; omega⟩

instance : IsTrans NoteEvent startLE := ⟨fun a b c => by unfold startLE; omega⟩

/-- `extract_notes`: collect over all tracks, then
`notes.sort(key=lambda n: n.start)`.  Python's `list.sort` is a stable
sort; it is modelled by insertion sort, the canonical stable sort. -/
def extract_notes (tracks : List (List Msg)) : Option (List NoteEvent) :=
  (extractAll tracks).map (fun ns => ns.insertionSort startLE)

/-! ## The encoder (`midi_utils.py`, `notes_to_midi` and
`_note_events_to_messages`, lines 157-226) -/

/-- Type of a message emitted by the encoder. -/
inductive OutKind where
  | note_on
  | note_off
  | end_of_track
deriving DecidableEq, Repr

/-- An `(absolute_tick, order_key, mido.Message)` triple as built inside
`_note_events_to_messages` before sorting. -/
structure AbsEvent where
  tick : Int
  order : Int
  kind : OutKind
  note : Int
  velocity : Int
deriving DecidableEq, Repr

/-- A message appended to the output track: kind, note, velocity and the
delta `time` field assigned by the `notes_to_midi` walk. -/
structure OutMsg where
  kind : OutKind
  note : Int
  velocity : Int
  time : Int
deriving DecidableEq, Repr

/-- The two events produced per note: `(start, 1, note_on(pitch, velocity))`
and `(start + duration, 0, note_off(pitch, 0))` (lines 205-224). -/
def rawEvents (notes : List NoteEvent) : List AbsEvent :=
  notes.flatMap (fun n =>
    [⟨n.start, 1, .note_on, n.pitch, n.velocity⟩,
     ⟨n.start + n.duration, 0, .note_off, n.pitch, 0⟩])

/-- The lexicographic key comparison of `events.sort(key=lambda e: (e[0], e[1]))`. -/
def eventLE (a b : AbsEvent) : Prop :=
  a.tick < b.tick ∨ (a.tick = b.tick ∧ a.order ≤ b.order)

instance : DecidableRel eventLE := fun a b => by unfold eventLE; infer_instance

instance : IsTotal AbsEvent eventLE := ⟨fun a b => by unfold eventLE; omega⟩

instance : IsTrans AbsEvent eventLE := ⟨fun a b c => by unfold eventLE; omega⟩

/-- `_note_events_to_messages`: build the per-note events and stable-sort
them by `(absolute_tick, order_key)` (Python's stable `list.sort`,
modelled by insertion sort). -/
def note_events_to_messages (notes : List NoteEvent) : List AbsEvent :=
  (rawEvents notes).insertionSort eventLE

/-- The walk in `notes_to_midi` (lines 178-183): emit each message with
`delta = absolute_tick - last_tick` as its time field, updating `last_tick`. -/
def deltaEncode (last : Int) : List AbsEvent → List OutMsg
  | [] => []
  | e :: es => ⟨e.kind, e.note, e.velocity, e.tick - last⟩ :: deltaEncode e.tick es

/-- `notes_to_midi` (track content): the delta-encoded sorted events
followed by the `end_of_track` meta message with time 0. -/
def notes_to_midi (notes : List NoteEvent) : List OutMsg :=
  deltaEncode 0 (note_events_to_messages notes) ++ [⟨.end_of_track, 0, 0, 0⟩]

/-- Reading back an emitted message with the extractor: `note_on`/`note_off`
keep their fields; the `end_of_track` meta message is an ignored type. -/
def outMsgToMsg (m : OutMsg) : Msg :=
  ⟨match m.kind with
    | .note_on => .note_on
    | .note_off => .note_off
    | .end_of_track => .other,
   m.note, m.velocity, m.time⟩

/-- `extract_notes(notes_to_midi(notes))`: the encoder writes a single
track, which the extractor then parses. -/
def roundTrip (notes : List NoteEvent) : Option (List NoteEvent) :=
  extract_notes [(notes_to_midi notes).map outMsgToMsg]

/-- The set of identity keys of a collection, as a Finset. -/
def keySet (notes : List NoteEvent) : Finset (Int × Int × Int) :=
  (notes.map NoteEvent.identity_key).toFinset

/-! ## Output path resolution (`core.py`, `_determine_out_path`, lines 27-55) -/

/-- The pieces of a `pathlib.Path` that `_determine_out_path` reads:
its parent directory, stem and suffix (`""` when the path has none). -/
structure PyPath where
  parent : String
  stem : String
  suffix : String
deriving DecidableEq, Repr

/-- The candidate `parent / f"{stem}_{i}{suffix}"` built on loop
iteration `i`, with `suffix = out_path.suffix or ".mid"`. -/
def candidatePath (p : PyPath) (i : Nat) : PyPath :=
  ⟨p.parent, p.stem ++ "_" ++ toString i,
   if p.suffix = "" then ".mid" else p.suffix⟩

/-- The `while candidate.exists():` probe loop.  The filesystem is the
`ex` oracle; an unbounded Python loop is modelled with fuel (`none` means
the loop did not terminate within the fuel).  The directory-creation side
effect (`parent.mkdir`, errors suppressed) has no bearing on the result. -/
def determineLoop (ex : PyPath → Bool) (p : PyPath) :
    PyPath → Nat → Nat → Option PyPath
  | _, _, 0 => none
  | candidate, i, fuel + 1 =>
    if ex candidate then determineLoop ex p (candidatePath p i) (i + 1) fuel
    else some candidate

/-- `_determine_out_path`: start from the requested path itself with
`i = 1`. -/
def determine_out_path (ex : PyPath → Bool) (p : PyPath) (fuel : Nat) :
    Option PyPath :=
  determineLoop ex p p 1 fuel

/-! ## A total replay machine for the round-trip proof

`runEvt`/`runEvts` replay the extractor's loop body directly on
absolute-tick events: same branches as `processMsg`, but total (the
`NoteEvent` construction is performed without the validation that can
raise).  A bridging lemma identifies it with `processTrack` over the
delta-encoded stream whenever every produced note is valid. -/

/-- One extractor step on an absolute-tick event (mirrors `processMsg`
after `tick += msg.time` has produced `e.tick`). -/
def runEvt (d : Ongoing) (acc : List NoteEvent) (e : AbsEvent) :
    Ongoing × List NoteEvent :=
  if e.kind = .note_on ∧ 0 < e.velocity then
    (setStack d e.note ((e.tick, e.velocity) :: getStack d e.note), acc)
  else if e.kind = .note_off ∨ (e.kind = .note_on ∧ e.velocity = 0) then
    match getStack d e.note with
    | [] => (d, acc)
    | (start, vel) :: rest =>
      if e.tick - start ≤ 0 then
        (if rest.isEmpty then removeKey d e.note else setStack d e.note rest, acc)
      else
        (if rest.isEmpty then removeKey d e.note else setStack d e.note rest,
         acc ++ [⟨e.note, start, e.tick - start, vel⟩])
  else (d, acc)

/-- Replay a whole event list. -/
def runEvts (d : Ongoing) (acc : List NoteEvent) :
    List AbsEvent → Ongoing × List NoteEvent
  | [] => (d, acc)
  | e :: es => runEvts (runEvt d acc e).1 (runEvt d acc e).2 es

/-- Invariant of the extractor state under well-formed input: the tick
accumulator is nonnegative and every stacked `(start_tick, velocity)`
pair was recorded from a well-formed note-on. -/
def StateOK (st : ExtractState) : Prop :=
  0 ≤ st.tick ∧ ∀ e ∈ st.ongoing, ∀ sv ∈ e.2, 0 ≤ sv.1 ∧ 0 ≤ sv.2 ∧ sv.2 ≤ 127

/-- Two half-open tick intervals `[start, start + duration)` do not
cross: they are disjoint or one is nested in the other (equal intervals
count as nested). -/
def NonCross (a b : NoteEvent) : Prop :=
  a.start + a.duration ≤ b.start ∨ b.start + b.duration ≤ a.start ∨
    (a.start ≤ b.start ∧ b.start + b.duration ≤ a.start + a.duration) ∨
    (b.start ≤ a.start ∧ a.start + a.duration ≤ b.start + b.duration)

instance (a b : NoteEvent) : Decidable (NonCross a b) := by
  unfold NonCross
  infer_instance

/-- No two same-pitch notes have crossing (partially overlapping,
non-nested) intervals.  Disjoint and nested same-pitch notes are
allowed. -/
def SamePitchNonCrossing (notes : List NoteEvent) : Prop :=
  notes.Pairwise (fun a b => a.pitch = b.pitch → NonCross a b)

instance (notes : List NoteEvent) : Decidable (SamePitchNonCrossing notes) := by
  unfold SamePitchNonCrossing
  infer_instance

/-- Shape of the events reaching the extractor for one pitch: the note
field is the pitch, note-ons carry order key 1 and an in-range positive
velocity, note-offs carry order key 0. -/
def EvShape (p : Int) (e : AbsEvent) : Prop :=
  e.note = p ∧
    ((e.kind = OutKind.note_on ∧ e.order = 1 ∧ 1 ≤ e.velocity ∧
        e.velocity ≤ 127) ∨
     (e.kind = OutKind.note_off ∧ e.order = 0))

/-- The `(absolute_tick, order_key)` sort key of an event. -/
def evKey (e : AbsEvent) : Int × Int := (e.tick, e.order)

end MidiDiff

namespace MidiDiff

/-- C1: Claimed: `a == b` iff `a` and `b` agree on `(pitch, start, duration)`.
The generated dataclass equality also compares velocity, so two NoteEvents
differing only in velocity are NOT equal and hash over different tuples:
the claim fails on the code. -/
theorem noteEvent_eq_ignores_velocity_fails :
    let a : NoteEvent := ⟨60, 0, 10, 100⟩
    let b : NoteEvent := ⟨60, 0, 10, 50⟩
    a.identity_key = b.identity_key ∧ NoteEvent.pyEq a b = false ∧
      a.pyHashKey ≠ b.pyHashKey := by
  refine ⟨rfl, rfl, ?_⟩
  decide

/-- C2: Claimed: the differ keys its sets by `(pitch, start, duration)`.
It actually keys by the full dataclass equality (velocity included):
for A = [(60,0,10,100)] and B = [(60,0,10,50)] — identical identity keys —
the claim demands an empty diff with counts (0,0), but the code reports
counts (1,1) and outputs both notes.  The identity-keyed differ the spec
describes would yield the empty diff. -/
theorem differ_keyed_by_identity_fails :
    diffNotes [⟨60, 0, 10, 100⟩] [⟨60, 0, 10, 50⟩] =
      ([⟨60, 0, 10, 100⟩, ⟨60, 0, 10, 50⟩], 1, 1) ∧
    diffNotesSpec [⟨60, 0, 10, 100⟩] [⟨60, 0, 10, 50⟩] = ([], 0, 0) := by
  constructor <;> rfl

/-- C4: `NoteEvent` construction succeeds exactly when pitch and velocity
lie in [0,127], start >= 0 and duration >= 1, and a constructed value
carries exactly the given fields and satisfies the invariant. -/
theorem noteEvent_construction_iff (p s d v : Int) :
    ((NoteEvent.make p s d v).isSome ↔
      0 ≤ p ∧ p ≤ 127 ∧ 0 ≤ s ∧ 1 ≤ d ∧ 0 ≤ v ∧ v ≤ 127) ∧
    ∀ n, NoteEvent.make p s d v = some n → n = ⟨p, s, d, v⟩ ∧ n.Valid := by
  constructor
  · unfold NoteEvent.make
    split_ifs with h
    · simpa [NoteEvent.Valid] using h
    · simp only [Option.isSome_none, Bool.false_eq_true, false_iff]
      simpa [NoteEvent.Valid] using h
  · intro n hn
    unfold NoteEvent.make at hn
    split_ifs at hn with h
    · cases hn
      exact ⟨rfl, h⟩

/-- C4 witness: an in-range construction succeeds, an out-of-range pitch
is rejected. -/
theorem noteEvent_construction_iff_witness :
    (NoteEvent.make 60 0 10 64).isSome = true ∧
      NoteEvent.make 128 0 10 64 = none := by
  refine ⟨(noteEvent_construction_iff 60 0 10 64).1.mpr (by decide), ?_⟩
  rw [← Option.not_isSome_iff_eq_none]
  intro hs
  have h := (noteEvent_construction_iff 128 0 10 64).1.mp hs
  omega

/-- C6: LIFO pairing of overlapping same-pitch notes: note-ons for pitch
60 at ticks 0 and 10, then note-offs at ticks 20 and 30, extract exactly
the notes (60, start 10, duration 10) and (60, start 0, duration 30)
(listed here in the final start-sorted order). -/
theorem lifo_pairing_example :
    extract_notes [[⟨.note_on, 60, 64, 0⟩, ⟨.note_on, 60, 64, 10⟩,
      ⟨.note_off, 60, 0, 10⟩, ⟨.note_off, 60, 0, 10⟩]] =
      some [⟨60, 0, 30, 64⟩, ⟨60, 10, 10, 64⟩] := by
  rfl

/-- C3 counterexample: the round trip does not preserve identity-key sets
for every collection.  Two failure modes: (1) two same-pitch notes with
crossing intervals, (0,20) and (10,30), come back LIFO-re-paired as
(10,10) and (0,40); (2) a velocity-0 note is re-read as a note-off and
vanishes. -/
theorem round_trip_counterexample :
    (roundTrip [⟨60, 0, 20, 64⟩, ⟨60, 10, 30, 64⟩] =
        some [⟨60, 0, 40, 64⟩, ⟨60, 10, 10, 64⟩] ∧
      keySet [⟨60, 0, 40, 64⟩, ⟨60, 10, 10, 64⟩] ≠
        keySet [⟨60, 0, 20, 64⟩, ⟨60, 10, 30, 64⟩]) ∧
    (roundTrip [⟨60, 0, 10, 0⟩] = some [] ∧
      keySet ([] : List NoteEvent) ≠ keySet [⟨60, 0, 10, 0⟩]) := by
  exact ⟨⟨rfl, by decide⟩, ⟨rfl, by decide⟩⟩

/-- The probe loop returns the current candidate as soon as it is free. -/
lemma determineLoop_free (ex : PyPath → Bool) (p cand : PyPath) (i fuel : Nat)
    (h : ex cand = false) (hf : 0 < fuel) :
    determineLoop ex p cand i fuel = some cand := by
  cases fuel with
  | zero => omega
  | succ f => simp [determineLoop, h]

/-- The probe loop walks `cand, candidatePath p i, candidatePath p (i+1), …`
and stops at the first free candidate. -/
lemma determineLoop_probe (ex : PyPath → Bool) (p : PyPath) (n : Nat) :
    ∀ (fuel i : Nat) (cand : PyPath),
      i ≤ n → ex cand = true →
      (∀ j, i ≤ j → j < n → ex (candidatePath p j) = true) →
      ex (candidatePath p n) = false →
      n + 1 < fuel + i →
      determineLoop ex p cand i fuel = some (candidatePath p n) := by
  intro fuel
  induction fuel with
  | zero => intro i cand hi hc hj hn hf; omega
  | succ f ih =>
    intro i cand hi hc hj hn hf
    rw [determineLoop]
    simp only [hc, if_true]
    rcases Nat.lt_or_ge i n with hlt | hge
    · exact ih (i + 1) (candidatePath p i) hlt (hj i le_rfl hlt)
        (fun j h1 h2 => hj j (by omega) h2) hn (by omega)
    · have : i = n := by omega
      subst this
      exact determineLoop_free ex p (candidatePath p i) (i + 1) f hn (by omega)

/-- C9: output path resolution: a nonexistent requested path is returned
unchanged; otherwise the candidates `stem_1`, `stem_2`, … (with the
default extension `.mid` when the request has none) are probed in order
and the first free one is returned. -/
theorem output_path_resolution (ex : PyPath → Bool) (p : PyPath) (n fuel : Nat) :
    (ex p = false → 0 < fuel → determine_out_path ex p fuel = some p) ∧
    (ex p = true → 1 ≤ n →
      (∀ j, 1 ≤ j → j < n → ex (candidatePath p j) = true) →
      ex (candidatePath p n) = false →
      n < fuel →
      determine_out_path ex p fuel = some (candidatePath p n)) := by
  constructor
  · intro h hf
    exact determineLoop_free ex p p 1 fuel h hf
  · intro hp hn hj hfree hfuel
    unfold determine_out_path
    cases fuel with
    | zero => omega
    | succ f =>
      rw [determineLoop]
      simp only [hp, if_true]
      rcases Nat.lt_or_ge 1 n with hlt | hge
      · exact determineLoop_probe ex p n f 2 (candidatePath p 1) hlt
          (hj 1 le_rfl hlt) (fun j h1 h2 => hj j (by omega) h2) hfree (by omega)
      · have : n = 1 := by omega
        subst this
        exact determineLoop_free ex p (candidatePath p 1) 2 f hfree (by omega)

/-- C9 witness: requesting `out.mid` while `out.mid` and `out_1.mid`
exist yields `out_2.mid`. -/
theorem output_path_resolution_witness :
    determine_out_path
        (fun q => q == (⟨".", "out", ".mid"⟩ : PyPath) ||
          q == (⟨".", "out_1", ".mid"⟩ : PyPath))
        ⟨".", "out", ".mid"⟩ 3 = some ⟨".", "out_2", ".mid"⟩ := by
  have h := (output_path_resolution
      (fun q => q == (⟨".", "out", ".mid"⟩ : PyPath) ||
        q == (⟨".", "out_1", ".mid"⟩ : PyPath))
      ⟨".", "out", ".mid"⟩ 2 3).2 (by decide) (by decide)
      (fun j h1 h2 => by
        have hj1 : j = 1 := by omega
        subst hj1
        rfl) (by decide) (by decide)
  simpa using h

/-- Every message emitted by the delta walk copies kind, note and velocity
from some event of the input list (only the time field is rewritten). -/
lemma mem_deltaEncode {m : OutMsg} :
    ∀ (es : List AbsEvent) (last : Int), m ∈ deltaEncode last es →
      ∃ e ∈ es, m.kind = e.kind ∧ m.note = e.note ∧ m.velocity = e.velocity := by
  intro es
  induction es with
  | nil => intro last h; simp [deltaEncode] at h
  | cons e es ih =>
    intro last h
    rw [deltaEncode] at h
    rcases List.mem_cons.mp h with h1 | h2
    · exact ⟨e, List.mem_cons_self e es, by subst h1; exact ⟨rfl, rfl, rfl⟩⟩
    · obtain ⟨e2, he2, hk⟩ := ih e.tick h2
      exact ⟨e2, List.mem_cons_of_mem e he2, hk⟩

/-- Membership in the raw, unsorted per-note event list: every event is
the note-on or the note-off of one of the notes. -/
lemma mem_rawEvents {e : AbsEvent} {notes : List NoteEvent}
    (h : e ∈ rawEvents notes) :
    ∃ n ∈ notes, e = ⟨n.start, 1, .note_on, n.pitch, n.velocity⟩ ∨
      e = ⟨n.start + n.duration, 0, .note_off, n.pitch, 0⟩ := by
  rw [rawEvents, List.mem_flatMap] at h
  obtain ⟨n, hn, he⟩ := h
  rcases List.mem_cons.mp he with h1 | h1
  · exact ⟨n, hn, Or.inl h1⟩
  · rcases List.mem_cons.mp h1 with h2 | h2
    · exact ⟨n, hn, Or.inr h2⟩
    · simp at h2

/-- C10: every note_off message emitted by the encoder carries velocity 0
regardless of the source velocity; the source velocity appears only on
the note_on message. -/
theorem note_off_velocity_zero (notes : List NoteEvent) (m : OutMsg)
    (hm : m ∈ notes_to_midi notes) :
    (m.kind = .note_off → m.velocity = 0) ∧
    (m.kind = .note_on → ∃ n ∈ notes, m.note = n.pitch ∧ m.velocity = n.velocity) := by
  unfold notes_to_midi at hm
  rcases List.mem_append.mp hm with h | h
  · obtain ⟨e, he, hk, hn, hv⟩ := mem_deltaEncode _ 0 h
    have he2 : e ∈ rawEvents notes := by
      rw [note_events_to_messages] at he
      exact (List.mem_insertionSort eventLE).mp he
    obtain ⟨n2, hn2, hcase⟩ := mem_rawEvents he2
    rcases hcase with h1 | h1 <;> subst h1 <;> constructor
    · intro hoff; rw [hk] at hoff; cases hoff
    · intro _; exact ⟨n2, hn2, hn, hv⟩
    · intro _; exact hv
    · intro hon; rw [hk] at hon; cases hon
  · have hme : m = ⟨.end_of_track, 0, 0, 0⟩ := by simpa using h
    subst hme
    constructor
    · intro h2
      exact absurd h2 (by decide)
    · intro h2
      exact absurd h2 (by decide)

/-- C10 witness: for the single note (60, start 0, duration 10,
velocity 100), the emitted note_off has velocity 0 even though the note's
velocity is 100, and the note_on carries velocity 100. -/
theorem note_off_velocity_zero_witness :
    ((⟨.note_off, 60, 0, 10⟩ : OutMsg) ∈ notes_to_midi [⟨60, 0, 10, 100⟩] ∧
      (⟨.note_off, 60, 0, 10⟩ : OutMsg).velocity = 0) ∧
    ((⟨.note_on, 60, 100, 0⟩ : OutMsg) ∈ notes_to_midi [⟨60, 0, 10, 100⟩] ∧
      ∃ n ∈ [(⟨60, 0, 10, 100⟩ : NoteEvent)],
        (⟨.note_on, 60, 100, 0⟩ : OutMsg).note = n.pitch ∧
        (⟨.note_on, 60, 100, 0⟩ : OutMsg).velocity = n.velocity) := by
  have hm1 : (⟨.note_off, 60, 0, 10⟩ : OutMsg) ∈ notes_to_midi [⟨60, 0, 10, 100⟩] := by
    decide
  have hm2 : (⟨.note_on, 60, 100, 0⟩ : OutMsg) ∈ notes_to_midi [⟨60, 0, 10, 100⟩] := by
    decide
  exact ⟨⟨hm1, (note_off_velocity_zero _ _ hm1).1 rfl⟩,
    ⟨hm2, (note_off_velocity_zero _ _ hm2).2 rfl⟩⟩

/-- The lexicographic event order implies tick order. -/
lemma eventLE_tick_le {a b : AbsEvent} (h : eventLE a b) : a.tick ≤ b.tick := by
  unfold eventLE at h; omega

/-- Walking a tick-sorted event list whose ticks all dominate `last`
emits only nonnegative deltas. -/
lemma deltaEncode_time_nonneg :
    ∀ (es : List AbsEvent) (last : Int),
      List.Pairwise (fun a b : AbsEvent => a.tick ≤ b.tick) es →
      (∀ e ∈ es, last ≤ e.tick) →
      ∀ m ∈ deltaEncode last es, 0 ≤ m.time := by
  intro es
  induction es with
  | nil => intro last _ _ m hm; simp [deltaEncode] at hm
  | cons e es ih =>
    intro last hp hl m hm
    rw [deltaEncode] at hm
    rcases List.mem_cons.mp hm with h1 | h2
    · subst h1
      have := hl e (List.mem_cons_self e es)
      simpa using by omega
    · exact ih e.tick (List.pairwise_cons.mp hp).2
        (fun e2 he2 => (List.pairwise_cons.mp hp).1 e2 he2) m h2

/-- C5: the encoder sorts the on/off events by `(absolute_tick,
order_key)` with note-off (0) before note-on (1) at equal ticks, walks
the sorted list emitting `delta = absolute_tick - last_tick`, so every
emitted delta is nonnegative, and appends the end-of-track marker with
delta 0 as the final message. -/
theorem encoder_sorted_deltas_nonneg (notes : List NoteEvent)
    (hv : ∀ n ∈ notes, n.Valid) :
    List.Sorted eventLE (note_events_to_messages notes) ∧
    notes_to_midi notes =
      deltaEncode 0 (note_events_to_messages notes) ++ [⟨.end_of_track, 0, 0, 0⟩] ∧
    (∀ m ∈ notes_to_midi notes, 0 ≤ m.time) ∧
    (notes_to_midi notes).getLast? = some ⟨.end_of_track, 0, 0, 0⟩ := by
  have hsorted : List.Sorted eventLE (note_events_to_messages notes) := by
    rw [note_events_to_messages]
    exact List.sorted_insertionSort eventLE _
  refine ⟨hsorted, rfl, ?_, List.getLast?_concat _⟩
  intro m hm
  unfold notes_to_midi at hm
  rcases List.mem_append.mp hm with h | h
  · refine deltaEncode_time_nonneg _ 0
      (List.Pairwise.imp (fun h => eventLE_tick_le h) hsorted) ?_ m h
    intro e he
    have he2 : e ∈ rawEvents notes := by
      rw [note_events_to_messages] at he
      exact (List.mem_insertionSort eventLE).mp he
    obtain ⟨n, hn, hc⟩ := mem_rawEvents he2
    have hvn := hv n hn
    unfold NoteEvent.Valid at hvn
    rcases hc with h1 | h1 <;> subst h1 <;> simp <;> omega
  · have hme : m = ⟨.end_of_track, 0, 0, 0⟩ := by simpa using h
    subst hme
    norm_num

/-- C5 witness: the single-note example emits deltas 0 and 10 and ends
with the end-of-track marker at delta 0. -/
theorem encoder_sorted_deltas_nonneg_witness :
    (∀ m ∈ notes_to_midi [⟨60, 0, 10, 100⟩], 0 ≤ m.time) ∧
    (notes_to_midi [⟨60, 0, 10, 100⟩]).getLast? =
      some ⟨.end_of_track, 0, 0, 0⟩ := by
  have h := encoder_sorted_deltas_nonneg [⟨60, 0, 10, 100⟩] (by decide)
  exact ⟨h.2.2.1, h.2.2.2⟩

/-- An entry of the dict after a store is the stored entry or an old one. -/
lemma mem_setStack {p : Int} {s : List (Int × Int)} :
    ∀ {d : Ongoing} {e : Int × List (Int × Int)},
      e ∈ setStack d p s → e = (p, s) ∨ e ∈ d := by
  intro d
  induction d with
  | nil =>
    intro e h
    rw [setStack] at h
    exact Or.inl (by simpa using h)
  | cons hd tl ih =>
    obtain ⟨q, t⟩ := hd
    intro e h
    rw [setStack] at h
    split_ifs at h with hq
    · rcases List.mem_cons.mp h with h1 | h1
      · exact Or.inl h1
      · exact Or.inr (List.mem_cons_of_mem _ h1)
    · rcases List.mem_cons.mp h with h1 | h1
      · subst h1; exact Or.inr (List.mem_cons_self _ _)
      · rcases ih h1 with h2 | h2
        · exact Or.inl h2
        · exact Or.inr (List.mem_cons_of_mem _ h2)

/-- An entry of the dict after a key removal was an entry before. -/
lemma mem_removeKey : ∀ {d : Ongoing} {p : Int} {e : Int × List (Int × Int)},
    e ∈ removeKey d p → e ∈ d := by
  intro d
  induction d with
  | nil => intro p e h; cases h
  | cons hd tl ih =>
    obtain ⟨q, t⟩ := hd
    intro p e h
    rw [removeKey] at h
    split_ifs at h with hq
    · exact List.mem_cons_of_mem _ (ih h)
    · rcases List.mem_cons.mp h with h1 | h1
      · subst h1; exact List.mem_cons_self _ _
      · exact List.mem_cons_of_mem _ (ih h1)

/-- Every stacked pair read back by `getStack` sits in some dict entry. -/
lemma getStack_mem : ∀ (d : Ongoing) (p : Int) {sv : Int × Int},
    sv ∈ getStack d p → ∃ e ∈ d, sv ∈ e.2 := by
  intro d
  induction d with
  | nil => intro p sv h; rw [getStack] at h; cases h
  | cons hd tl ih =>
    obtain ⟨q, t⟩ := hd
    intro p sv h
    rw [getStack] at h
    split_ifs at h with hq
    · exact ⟨(q, t), List.mem_cons_self _ _, h⟩
    · obtain ⟨e, he, hsv⟩ := ih p h
      exact ⟨e, List.mem_cons_of_mem _ he, hsv⟩

/-- Equation: the loop body on a note-on with positive velocity. -/
lemma processMsg_on_eq {st : ExtractState} {msg : Msg}
    (h1 : msg.type = .note_on ∧ msg.velocity > 0) :
    processMsg st msg = some ⟨st.tick + msg.time,
      setStack st.ongoing msg.note
        ((st.tick + msg.time, msg.velocity) :: getStack st.ongoing msg.note),
      st.notes⟩ := by
  unfold processMsg
  rw [if_pos h1]

/-- Equation: the loop body on an ignored message type. -/
lemma processMsg_skip_eq {st : ExtractState} {msg : Msg}
    (h1 : ¬(msg.type = .note_on ∧ msg.velocity > 0))
    (h2 : ¬(msg.type = .note_off ∨ (msg.type = .note_on ∧ msg.velocity = 0))) :
    processMsg st msg = some ⟨st.tick + msg.time, st.ongoing, st.notes⟩ := by
  unfold processMsg
  rw [if_neg h1, if_neg h2]

/-- Equation: note-off with an empty stack for its pitch. -/
lemma processMsg_off_nil_eq {st : ExtractState} {msg : Msg}
    (h1 : ¬(msg.type = .note_on ∧ msg.velocity > 0))
    (h2 : msg.type = .note_off ∨ (msg.type = .note_on ∧ msg.velocity = 0))
    (hstack : getStack st.ongoing msg.note = []) :
    processMsg st msg = some ⟨st.tick + msg.time, st.ongoing, st.notes⟩ := by
  unfold processMsg
  rw [if_neg h1, if_pos h2, hstack]

/-- Equation: note-off popping a pairing with nonpositive duration. -/
lemma processMsg_off_drop_eq {st : ExtractState} {msg : Msg}
    {start vel : Int} {rest : List (Int × Int)}
    (h1 : ¬(msg.type = .note_on ∧ msg.velocity > 0))
    (h2 : msg.type = .note_off ∨ (msg.type = .note_on ∧ msg.velocity = 0))
    (hstack : getStack st.ongoing msg.note = (start, vel) :: rest)
    (hdur : st.tick + msg.time - start ≤ 0) :
    processMsg st msg = some ⟨st.tick + msg.time,
      if rest.isEmpty then removeKey st.ongoing msg.note
      else setStack st.ongoing msg.note rest, st.notes⟩ := by
  unfold processMsg
  rw [if_neg h1, if_pos h2, hstack]
  simp only [if_pos hdur]

/-- Equation: note-off popping a positive-duration pairing constructs
the NoteEvent (whose validation is what can raise). -/
lemma processMsg_off_append_eq {st : ExtractState} {msg : Msg}
    {start vel : Int} {rest : List (Int × Int)}
    (h1 : ¬(msg.type = .note_on ∧ msg.velocity > 0))
    (h2 : msg.type = .note_off ∨ (msg.type = .note_on ∧ msg.velocity = 0))
    (hstack : getStack st.ongoing msg.note = (start, vel) :: rest)
    (hdur : ¬st.tick + msg.time - start ≤ 0) :
    processMsg st msg =
      Option.map (fun n => (⟨st.tick + msg.time,
        if rest.isEmpty then removeKey st.ongoing msg.note
        else setStack st.ongoing msg.note rest,
        st.notes ++ [n]⟩ : ExtractState))
        (NoteEvent.make msg.note start (st.tick + msg.time - start) vel) := by
  unfold processMsg
  rw [if_neg h1, if_pos h2, hstack]
  simp only [if_neg hdur]
  cases NoteEvent.make msg.note start (st.tick + msg.time - start) vel <;> rfl

/-- One well-formed message never makes the loop body raise, and the
state invariant is preserved. -/
lemma processMsg_total {st : ExtractState} {msg : Msg}
    (hok : StateOK st) (hwf : msg.WF) :
    ∃ st2, processMsg st msg = some st2 ∧ StateOK st2 := by
  obtain ⟨htick, hstacks⟩ := hok
  obtain ⟨hn1, hn2, hv1, hv2, ht⟩ := hwf
  by_cases h1 : msg.type = .note_on ∧ msg.velocity > 0
  · refine ⟨_, processMsg_on_eq h1, ?_, ?_⟩
    · dsimp only
      omega
    · dsimp only
      intro e he sv hsv
      rcases mem_setStack he with he2 | he2
      · subst he2
        rcases List.mem_cons.mp hsv with h3 | h3
        · subst h3
          refine ⟨?_, ?_, ?_⟩ <;> dsimp only <;> omega
        · obtain ⟨e2, he3, hsv2⟩ := getStack_mem _ _ h3
          exact hstacks e2 he3 sv hsv2
      · exact hstacks e he2 sv hsv
  · by_cases h2 : msg.type = .note_off ∨ (msg.type = .note_on ∧ msg.velocity = 0)
    · cases hstack : getStack st.ongoing msg.note with
      | nil =>
        refine ⟨_, processMsg_off_nil_eq h1 h2 hstack, ?_, ?_⟩
        · dsimp only; omega
        · dsimp only; exact hstacks
      | cons hd rest =>
        obtain ⟨start, vel⟩ := hd
        have hsv : (start, vel) ∈ getStack st.ongoing msg.note := by
          rw [hstack]; exact List.mem_cons_self _ _
        obtain ⟨e0, he0, hsv0⟩ := getStack_mem _ _ hsv
        obtain ⟨hst0, hv0a, hv0b⟩ := hstacks e0 he0 _ hsv0
        dsimp only at hst0 hv0a hv0b
        have hrests : ∀ e ∈ (if rest.isEmpty then removeKey st.ongoing msg.note
            else setStack st.ongoing msg.note rest), ∀ sv ∈ e.2,
            0 ≤ sv.1 ∧ 0 ≤ sv.2 ∧ sv.2 ≤ 127 := by
          intro e he sv hsv2
          split_ifs at he with hre
          · exact hstacks e (mem_removeKey he) sv hsv2
          · rcases mem_setStack he with he2 | he2
            · subst he2
              have hm : sv ∈ getStack st.ongoing msg.note := by
                rw [hstack]; exact List.mem_cons_of_mem _ hsv2
              obtain ⟨e2, he3, hsv3⟩ := getStack_mem _ _ hm
              exact hstacks e2 he3 sv hsv3
            · exact hstacks e he2 sv hsv2
        by_cases hdur : st.tick + msg.time - start ≤ 0
        · refine ⟨_, processMsg_off_drop_eq h1 h2 hstack hdur, ?_, ?_⟩
          · dsimp only; omega
          · dsimp only; exact hrests
        · have hvld : (NoteEvent.mk msg.note start (st.tick + msg.time - start)
              vel).Valid := by
            unfold NoteEvent.Valid
            dsimp only
            refine ⟨hn1, hn2, ?_, ?_, ?_, ?_⟩ <;> omega
          refine ⟨⟨st.tick + msg.time,
            if rest.isEmpty then removeKey st.ongoing msg.note
            else setStack st.ongoing msg.note rest,
            st.notes ++ [⟨msg.note, start, st.tick + msg.time - start, vel⟩]⟩,
            ?_, ?_, ?_⟩
          · rw [processMsg_off_append_eq h1 h2 hstack hdur,
              NoteEvent.make, if_pos hvld]
            rfl
          · dsimp only; omega
          · dsimp only
            exact hrests
    · refine ⟨_, processMsg_skip_eq h1 h2, ?_, ?_⟩
      · dsimp only; omega
      · dsimp only; exact hstacks

/-- A track of well-formed messages never raises and preserves the state
invariant. -/
lemma processTrack_total : ∀ (t : List Msg) (st : ExtractState),
    StateOK st → (∀ m ∈ t, m.WF) →
    ∃ st2, processTrack st t = some st2 ∧ StateOK st2 := by
  intro t
  induction t with
  | nil => intro st hok _; exact ⟨st, rfl, hok⟩
  | cons m ms ih =>
    intro st hok hwf
    obtain ⟨st2, h2, hok2⟩ := processMsg_total hok (hwf m (List.mem_cons_self _ _))
    obtain ⟨st3, h3, hok3⟩ :=
      ih st2 hok2 (fun m2 hm2 => hwf m2 (List.mem_cons_of_mem _ hm2))
    refine ⟨st3, ?_, hok3⟩
    rw [processTrack, h2]
    exact h3

/-- The fresh state each track starts from satisfies the invariant. -/
lemma initOK : StateOK ⟨0, [], []⟩ := by
  refine ⟨le_refl 0, ?_⟩
  intro e he
  cases he

/-- Extraction over well-formed tracks never raises. -/
lemma extractAll_total : ∀ (tracks : List (List Msg)),
    (∀ t ∈ tracks, ∀ m ∈ t, m.WF) → ∃ ns, extractAll tracks = some ns := by
  intro tracks
  induction tracks with
  | nil => intro _; exact ⟨[], rfl⟩
  | cons t ts ih =>
    intro hwf
    obtain ⟨st, hst, _⟩ :=
      processTrack_total t ⟨0, [], []⟩ initOK (hwf t (List.mem_cons_self _ _))
    obtain ⟨ns, hns⟩ := ih (fun t2 ht2 => hwf t2 (List.mem_cons_of_mem _ ht2))
    refine ⟨st.notes ++ ns, ?_⟩
    rw [extractAll, hst, hns]

/-- C7: extraction is lenient and total: over well-formed input (mido
validates note and velocity into [0,127] and file delta times are
nonnegative) it never raises; a note-off whose pitch has an empty stack
only advances the tick; a pairing with nonpositive duration is dropped
without producing a note (and notes still open at end of track are
discarded with the per-track state by construction of `extractAll`). -/
theorem extraction_lenient (tracks : List (List Msg))
    (hwf : ∀ t ∈ tracks, ∀ m ∈ t, m.WF) :
    (extract_notes tracks).isSome = true ∧
    (∀ (st : ExtractState) (msg : Msg),
      msg.type = .note_off ∨ (msg.type = .note_on ∧ msg.velocity = 0) →
      getStack st.ongoing msg.note = [] →
      processMsg st msg = some ⟨st.tick + msg.time, st.ongoing, st.notes⟩) ∧
    (∀ (st : ExtractState) (msg : Msg) (start vel : Int)
        (rest : List (Int × Int)),
      msg.type = .note_off ∨ (msg.type = .note_on ∧ msg.velocity = 0) →
      getStack st.ongoing msg.note = (start, vel) :: rest →
      st.tick + msg.time - start ≤ 0 →
      processMsg st msg = some ⟨st.tick + msg.time,
        if rest.isEmpty then removeKey st.ongoing msg.note
        else setStack st.ongoing msg.note rest, st.notes⟩) := by
  refine ⟨?_, ?_, ?_⟩
  · obtain ⟨ns, hns⟩ := extractAll_total tracks hwf
    rw [extract_notes, hns]
    rfl
  · intro st msg hoff hstack
    have hnot : ¬(msg.type = .note_on ∧ msg.velocity > 0) := by
      rcases hoff with h | ⟨h, hv⟩
      · rintro ⟨h2, _⟩; rw [h] at h2; cases h2
      · rintro ⟨_, h2⟩; omega
    unfold processMsg
    rw [if_neg hnot, if_pos hoff, hstack]
  · intro st msg start vel rest hoff hstack hdur
    have hnot : ¬(msg.type = .note_on ∧ msg.velocity > 0) := by
      rcases hoff with h | ⟨h, hv⟩
      · rintro ⟨h2, _⟩; rw [h] at h2; cases h2
      · rintro ⟨_, h2⟩; omega
    unfold processMsg
    rw [if_neg hnot, if_pos hoff, hstack]
    simp only [if_pos hdur]

/-- C7 witness: a track with an unmatched note-off, a zero-duration
pairing and a note left open extracts without raising. -/
theorem extraction_lenient_witness :
    (extract_notes [[⟨.note_off, 60, 0, 5⟩, ⟨.note_on, 61, 50, 0⟩,
      ⟨.note_on, 61, 0, 0⟩, ⟨.note_on, 62, 30, 0⟩]]).isSome = true :=
  (extraction_lenient _ (by decide)).1

/-- Every branch of the loop body advances the tick by the message's
delta time. -/
lemma processMsg_tick {st : ExtractState} {msg : Msg} {st2 : ExtractState}
    (h : processMsg st msg = some st2) : st2.tick = st.tick + msg.time := by
  by_cases h1 : msg.type = .note_on ∧ msg.velocity > 0
  · rw [processMsg_on_eq h1] at h
    cases h
    rfl
  · by_cases h2 : msg.type = .note_off ∨ (msg.type = .note_on ∧ msg.velocity = 0)
    · cases hstack : getStack st.ongoing msg.note with
      | nil =>
        rw [processMsg_off_nil_eq h1 h2 hstack] at h
        cases h
        rfl
      | cons hd rest =>
        obtain ⟨start, vel⟩ := hd
        by_cases hdur : st.tick + msg.time - start ≤ 0
        · rw [processMsg_off_drop_eq h1 h2 hstack hdur] at h
          cases h
          rfl
        · rw [processMsg_off_append_eq h1 h2 hstack hdur] at h
          cases hmk : NoteEvent.make msg.note start (st.tick + msg.time - start)
              vel with
          | none => rw [hmk] at h; cases h
          | some n =>
            rw [hmk] at h
            cases h
            rfl
    · rw [processMsg_skip_eq h1 h2] at h
      cases h
      rfl

/-- The final tick of a track run is the initial tick plus the sum of
every message's delta time, ignored messages included. -/
lemma processTrack_tick : ∀ (t : List Msg) (st st2 : ExtractState),
    processTrack st t = some st2 →
    st2.tick = st.tick + (t.map Msg.time).sum := by
  intro t
  induction t with
  | nil =>
    intro st st2 h
    cases h
    simp
  | cons m ms ih =>
    intro st st2 h
    rw [processTrack] at h
    cases hm : processMsg st m with
    | none => rw [hm] at h; cases h
    | some stm =>
      rw [hm] at h
      have h2 := ih stm st2 h
      have ht := processMsg_tick hm
      simp only [List.map_cons, List.sum_cons]
      omega

/-- C8: per-track tick accounting: the counter advances by the delta of
every message (whatever its type) before interpretation, the final tick
is the sum of all deltas, and each track is processed from the fresh
state with tick 0 (no state carries across tracks). -/
theorem per_track_tick_accounting :
    (∀ (st : ExtractState) (msg : Msg) (st2 : ExtractState),
        processMsg st msg = some st2 → st2.tick = st.tick + msg.time) ∧
    (∀ (t : List Msg) (st st2 : ExtractState),
        processTrack st t = some st2 →
        st2.tick = st.tick + (t.map Msg.time).sum) ∧
    (∀ (t : List Msg) (ts : List (List Msg)),
        extractAll (t :: ts) =
          match processTrack ⟨0, [], []⟩ t, extractAll ts with
          | some st, some rest => some (st.notes ++ rest)
          | _, _ => none) := by
  refine ⟨fun st msg st2 h => processMsg_tick h, processTrack_tick, ?_⟩
  intro t ts
  cases h1 : processTrack ⟨0, [], []⟩ t <;> cases h2 : extractAll ts <;>
    rw [extractAll, h1, h2]

/-- C8 witness: an ignored message type still advances the tick, and the
final tick of a track is the sum of its deltas. -/
theorem per_track_tick_accounting_witness :
    ((⟨5, [], []⟩ : ExtractState).tick =
      (⟨0, [], []⟩ : ExtractState).tick + (⟨.other, 0, 0, 5⟩ : Msg).time) ∧
    ((⟨7, [(60, [(7, 10)])], []⟩ : ExtractState).tick =
      (⟨0, [], []⟩ : ExtractState).tick +
        (([⟨.other, 0, 0, 3⟩, ⟨.note_on, 60, 10, 4⟩] : List Msg).map
          Msg.time).sum) := by
  constructor
  · exact per_track_tick_accounting.1 ⟨0, [], []⟩ ⟨.other, 0, 0, 5⟩
      ⟨5, [], []⟩ rfl
  · exact per_track_tick_accounting.2.1 [⟨.other, 0, 0, 3⟩, ⟨.note_on, 60, 10, 4⟩]
      ⟨0, [], []⟩ ⟨7, [(60, [(7, 10)])], []⟩ rfl

/-- Reading back the stack just stored. -/
lemma getStack_setStack_self : ∀ (d : Ongoing) (p : Int) (s : List (Int × Int)),
    getStack (setStack d p s) p = s := by
  intro d
  induction d with
  | nil => intro p s; simp [setStack, getStack]
  | cons hd tl ih =>
    obtain ⟨q, t⟩ := hd
    intro p s
    rw [setStack]
    split_ifs with hq
    · rw [getStack, if_pos rfl]
    · rw [getStack, if_neg hq]
      exact ih p s

/-- A store under a different pitch does not change the read stack. -/
lemma getStack_setStack_ne : ∀ (d : Ongoing) {q p : Int} (s : List (Int × Int)),
    q ≠ p → getStack (setStack d q s) p = getStack d p := by
  intro d
  induction d with
  | nil =>
    intro q p s hqp
    simp only [setStack, getStack]
    rw [if_neg hqp]
  | cons hd tl ih =>
    obtain ⟨a, t⟩ := hd
    intro q p s hqp
    rw [setStack]
    split_ifs with ha
    · subst ha
      rw [getStack, if_neg hqp, getStack, if_neg hqp]
    · rw [getStack, getStack]
      split_ifs with hap
      · rfl
      · exact ih s hqp

/-- Reading the removed pitch yields the empty stack. -/
lemma getStack_removeKey_self : ∀ (d : Ongoing) (p : Int),
    getStack (removeKey d p) p = [] := by
  intro d
  induction d with
  | nil => intro p; rfl
  | cons hd tl ih =>
    obtain ⟨q, t⟩ := hd
    intro p
    rw [removeKey]
    split_ifs with hq
    · exact ih p
    · rw [getStack, if_neg hq]
      exact ih p

/-- Removing a different pitch does not change the read stack. -/
lemma getStack_removeKey_ne : ∀ (d : Ongoing) {q p : Int},
    q ≠ p → getStack (removeKey d q) p = getStack d p := by
  intro d
  induction d with
  | nil => intro q p _; rfl
  | cons hd tl ih =>
    obtain ⟨a, t⟩ := hd
    intro q p hqp
    rw [removeKey]
    split_ifs with ha
    · subst ha
      rw [getStack, if_neg hqp]
      exact ih hqp
    · rw [getStack, getStack]
      split_ifs with hap
      · rfl
      · exact ih hqp

/-- The replay step only appends to the accumulator; the dict result does
not depend on it. -/
lemma runEvt_acc (d : Ongoing) (acc : List NoteEvent) (e : AbsEvent) :
    (runEvt d acc e).1 = (runEvt d [] e).1 ∧
    (runEvt d acc e).2 = acc ++ (runEvt d [] e).2 := by
  unfold runEvt
  split_ifs with h1 h2
  · exact ⟨rfl, by simp⟩
  · cases hstack : getStack d e.note with
    | nil => exact ⟨rfl, by simp⟩
    | cons hd rest =>
      obtain ⟨start, vel⟩ := hd
      dsimp only
      split_ifs <;> exact ⟨rfl, by simp⟩
  · exact ⟨rfl, by simp⟩

/-- Accumulator normal form of the replay run. -/
lemma runEvts_acc : ∀ (es : List AbsEvent) (d : Ongoing) (acc : List NoteEvent),
    (runEvts d acc es).1 = (runEvts d [] es).1 ∧
    (runEvts d acc es).2 = acc ++ (runEvts d [] es).2 := by
  intro es
  induction es with
  | nil => intro d acc; exact ⟨rfl, by simp [runEvts]⟩
  | cons e es ih =>
    intro d acc
    rw [runEvts, runEvts]
    obtain ⟨hd1, ha1⟩ := runEvt_acc d acc e
    rw [hd1, ha1]
    obtain ⟨hd2, ha2⟩ := ih (runEvt d [] e).1 (acc ++ (runEvt d [] e).2)
    obtain ⟨hd3, ha3⟩ := ih (runEvt d [] e).1 (runEvt d [] e).2
    refine ⟨by rw [hd2, hd3], ?_⟩
    rw [ha2, ha3, List.append_assoc]

/-- The replay run over a concatenation. -/
lemma runEvts_append : ∀ (xs ys : List AbsEvent) (d : Ongoing) (acc : List NoteEvent),
    runEvts d acc (xs ++ ys) =
      runEvts (runEvts d acc xs).1 (runEvts d acc xs).2 ys := by
  intro xs
  induction xs with
  | nil => intro ys d acc; rfl
  | cons e xs ih =>
    intro ys d acc
    rw [List.cons_append, runEvts]
    rw [ih ys (runEvt d acc e).1 (runEvt d acc e).2]
    rw [runEvts]

/-- The extractor loop body on a delta-encoded note-off (or velocity-0
note-on) agrees with the total replay step at the absolute tick. -/
lemma processMsg_runEvt_off (st : ExtractState) (e : AbsEvent)
    (hval : ∀ n ∈ (runEvt st.ongoing [] e).2, n.Valid)
    (hpm1 : ¬((outMsgToMsg ⟨e.kind, e.note, e.velocity, e.tick - st.tick⟩).type
        = .note_on ∧
      (outMsgToMsg ⟨e.kind, e.note, e.velocity, e.tick - st.tick⟩).velocity > 0))
    (hpm2 : (outMsgToMsg ⟨e.kind, e.note, e.velocity, e.tick - st.tick⟩).type
        = .note_off ∨
      ((outMsgToMsg ⟨e.kind, e.note, e.velocity, e.tick - st.tick⟩).type
          = .note_on ∧
        (outMsgToMsg ⟨e.kind, e.note, e.velocity, e.tick - st.tick⟩).velocity
          = 0))
    (hre1 : ¬(e.kind = .note_on ∧ 0 < e.velocity))
    (hre2 : e.kind = .note_off ∨ (e.kind = .note_on ∧ e.velocity = 0)) :
    processMsg st (outMsgToMsg ⟨e.kind, e.note, e.velocity, e.tick - st.tick⟩) =
      some ⟨e.tick, (runEvt st.ongoing st.notes e).1,
        (runEvt st.ongoing st.notes e).2⟩ := by
  have ht : st.tick + (e.tick - st.tick) = e.tick := by ring
  cases hstack : getStack st.ongoing e.note with
  | nil =>
    rw [processMsg_off_nil_eq hpm1 hpm2 hstack]
    unfold runEvt
    rw [if_neg hre1, if_pos hre2, hstack]
    dsimp only [outMsgToMsg]
    rw [ht]
  | cons hd rest =>
    obtain ⟨start, vel⟩ := hd
    by_cases hdur : e.tick - start ≤ 0
    · have hdur2 : st.tick + (e.tick - st.tick) - start ≤ 0 := by omega
      rw [processMsg_off_drop_eq hpm1 hpm2 hstack hdur2]
      unfold runEvt
      rw [if_neg hre1, if_pos hre2, hstack]
      dsimp only [outMsgToMsg]
      rw [if_pos hdur, ht]
    · have hdur2 : ¬st.tick + (e.tick - st.tick) - start ≤ 0 := by omega
      have hrun2 : (runEvt st.ongoing [] e).2 =
          [⟨e.note, start, e.tick - start, vel⟩] := by
        unfold runEvt
        rw [if_neg hre1, if_pos hre2, hstack]
        dsimp only
        rw [if_neg hdur]
        simp
      have hvld : (NoteEvent.mk e.note start (e.tick - start) vel).Valid :=
        hval _ (by rw [hrun2]; exact List.mem_cons_self _ _)
      have harith : st.tick + (e.tick - st.tick) - start = e.tick - start := by
        ring
      rw [processMsg_off_append_eq hpm1 hpm2 hstack hdur2]
      dsimp only [outMsgToMsg]
      rw [harith, NoteEvent.make, if_pos hvld]
      unfold runEvt
      rw [if_neg hre1, if_pos hre2, hstack]
      dsimp only
      rw [if_neg hdur, ht]
      rfl

/-- One step of the bridge: the extractor on the delta-encoded event
stream agrees with the absolute-tick replay step. -/
lemma processMsg_runEvt (st : ExtractState) (e : AbsEvent)
    (hval : ∀ n ∈ (runEvt st.ongoing [] e).2, n.Valid) :
    processMsg st (outMsgToMsg ⟨e.kind, e.note, e.velocity, e.tick - st.tick⟩) =
      some ⟨e.tick, (runEvt st.ongoing st.notes e).1,
        (runEvt st.ongoing st.notes e).2⟩ := by
  have ht : st.tick + (e.tick - st.tick) = e.tick := by ring
  have hks : e.kind = .note_on ∨ e.kind = .note_off ∨ e.kind = .end_of_track := by
    cases e.kind
    · exact Or.inl rfl
    · exact Or.inr (Or.inl rfl)
    · exact Or.inr (Or.inr rfl)
  rcases hks with hk | hk | hk
  · have htype : (outMsgToMsg ⟨e.kind, e.note, e.velocity,
        e.tick - st.tick⟩).type = .note_on := by
      dsimp only [outMsgToMsg]
      rw [hk]
    by_cases hv : 0 < e.velocity
    · rw [processMsg_on_eq ⟨htype, hv⟩]
      unfold runEvt
      rw [if_pos ⟨hk, hv⟩]
      dsimp only [outMsgToMsg]
      rw [ht]
    · by_cases hv0 : e.velocity = 0
      · refine processMsg_runEvt_off st e hval ?_ (Or.inr ⟨htype, hv0⟩)
          ?_ (Or.inr ⟨hk, hv0⟩)
        · rintro ⟨_, h⟩
          exact hv h
        · rintro ⟨_, h⟩
          exact hv h
      · have hpm1 : ¬((outMsgToMsg ⟨e.kind, e.note, e.velocity,
            e.tick - st.tick⟩).type = .note_on ∧
            (outMsgToMsg ⟨e.kind, e.note, e.velocity,
              e.tick - st.tick⟩).velocity > 0) := by
          rintro ⟨_, h⟩
          exact hv h
        have hpm2 : ¬((outMsgToMsg ⟨e.kind, e.note, e.velocity,
            e.tick - st.tick⟩).type = .note_off ∨
            ((outMsgToMsg ⟨e.kind, e.note, e.velocity,
              e.tick - st.tick⟩).type = .note_on ∧
              (outMsgToMsg ⟨e.kind, e.note, e.velocity,
                e.tick - st.tick⟩).velocity = 0)) := by
          rintro (h | ⟨_, h⟩)
          · rw [htype] at h
            cases h
          · exact hv0 h
        rw [processMsg_skip_eq hpm1 hpm2]
        unfold runEvt
        rw [if_neg fun h => hv h.2, if_neg ?hre2]
        case hre2 =>
          rintro (h | ⟨_, h⟩)
          · rw [hk] at h
            cases h
          · exact hv0 h
        dsimp only [outMsgToMsg]
        rw [ht]
  · have htype : (outMsgToMsg ⟨e.kind, e.note, e.velocity,
        e.tick - st.tick⟩).type = .note_off := by
      dsimp only [outMsgToMsg]
      rw [hk]
    refine processMsg_runEvt_off st e hval ?_ (Or.inl htype) ?_ (Or.inl hk)
    · rintro ⟨h, _⟩
      rw [htype] at h
      cases h
    · rintro ⟨h, _⟩
      rw [hk] at h
      cases h
  · have htype : (outMsgToMsg ⟨e.kind, e.note, e.velocity,
        e.tick - st.tick⟩).type = .other := by
      dsimp only [outMsgToMsg]
      rw [hk]
    have hpm1 : ¬((outMsgToMsg ⟨e.kind, e.note, e.velocity,
        e.tick - st.tick⟩).type = .note_on ∧
        (outMsgToMsg ⟨e.kind, e.note, e.velocity,
          e.tick - st.tick⟩).velocity > 0) := by
      rintro ⟨h, _⟩
      rw [htype] at h
      cases h
    have hpm2 : ¬((outMsgToMsg ⟨e.kind, e.note, e.velocity,
        e.tick - st.tick⟩).type = .note_off ∨
        ((outMsgToMsg ⟨e.kind, e.note, e.velocity,
          e.tick - st.tick⟩).type = .note_on ∧
          (outMsgToMsg ⟨e.kind, e.note, e.velocity,
            e.tick - st.tick⟩).velocity = 0)) := by
      rintro (h | ⟨h, _⟩) <;> rw [htype] at h <;> cases h
    rw [processMsg_skip_eq hpm1 hpm2]
    unfold runEvt
    rw [if_neg ?hre1b, if_neg ?hre2b]
    case hre1b =>
      rintro ⟨h, _⟩
      rw [hk] at h
      cases h
    case hre2b =>
      rintro (h | ⟨h, _⟩) <;> rw [hk] at h <;> cases h
    dsimp only [outMsgToMsg]
    rw [ht]

/-- The extractor run over a delta-encoded event stream agrees with the
absolute-tick replay whenever every replayed note is valid. -/
lemma processTrack_deltaEncode : ∀ (es : List AbsEvent) (st : ExtractState),
    (∀ n ∈ (runEvts st.ongoing [] es).2, n.Valid) →
    ∃ t, processTrack st ((deltaEncode st.tick es).map outMsgToMsg) =
      some ⟨t, (runEvts st.ongoing st.notes es).1,
        (runEvts st.ongoing st.notes es).2⟩ := by
  intro es
  induction es with
  | nil =>
    intro st hval
    exact ⟨st.tick, rfl⟩
  | cons e es ih =>
    intro st hval
    rw [deltaEncode, List.map_cons, processTrack]
    have hval1 : ∀ n ∈ (runEvt st.ongoing [] e).2, n.Valid := by
      intro n hn
      apply hval
      rw [runEvts]
      obtain ⟨_, hacc⟩ :=
        runEvts_acc es (runEvt st.ongoing [] e).1 (runEvt st.ongoing [] e).2
      rw [hacc]
      exact List.mem_append_left _ hn
    rw [processMsg_runEvt st e hval1]
    have hval2 : ∀ n ∈ (runEvts (runEvt st.ongoing [] e).1 [] es).2,
        n.Valid := by
      intro n hn
      apply hval
      rw [runEvts]
      obtain ⟨_, hacc⟩ :=
        runEvts_acc es (runEvt st.ongoing [] e).1 (runEvt st.ongoing [] e).2
      rw [hacc]
      exact List.mem_append_right _ hn
    obtain ⟨t, hih⟩ := ih ⟨e.tick, (runEvt st.ongoing st.notes e).1,
      (runEvt st.ongoing st.notes e).2⟩
      (by
        intro n hn
        apply hval2
        obtain ⟨hd1, _⟩ := runEvt_acc st.ongoing st.notes e
        rw [← hd1]
        exact hn)
    refine ⟨t, ?_⟩
    rw [runEvts]
    exact hih

/-- Equation: replay of a note-on with positive velocity. -/
lemma runEvt_on_eq {d : Ongoing} {acc : List NoteEvent} {e : AbsEvent}
    (h1 : e.kind = .note_on ∧ 0 < e.velocity) :
    runEvt d acc e =
      (setStack d e.note ((e.tick, e.velocity) :: getStack d e.note), acc) := by
  unfold runEvt
  rw [if_pos h1]

/-- Equation: replay of an event that is neither an on nor an off. -/
lemma runEvt_skip_eq {d : Ongoing} {acc : List NoteEvent} {e : AbsEvent}
    (h1 : ¬(e.kind = .note_on ∧ 0 < e.velocity))
    (h2 : ¬(e.kind = .note_off ∨ (e.kind = .note_on ∧ e.velocity = 0))) :
    runEvt d acc e = (d, acc) := by
  unfold runEvt
  rw [if_neg h1, if_neg h2]

/-- Equation: replay of an off with an empty stack. -/
lemma runEvt_off_nil_eq {d : Ongoing} {acc : List NoteEvent} {e : AbsEvent}
    (h1 : ¬(e.kind = .note_on ∧ 0 < e.velocity))
    (h2 : e.kind = .note_off ∨ (e.kind = .note_on ∧ e.velocity = 0))
    (hstack : getStack d e.note = []) :
    runEvt d acc e = (d, acc) := by
  unfold runEvt
  rw [if_neg h1, if_pos h2, hstack]

/-- Equation: replay of an off popping a nonpositive duration. -/
lemma runEvt_off_drop_eq {d : Ongoing} {acc : List NoteEvent} {e : AbsEvent}
    {start vel : Int} {rest : List (Int × Int)}
    (h1 : ¬(e.kind = .note_on ∧ 0 < e.velocity))
    (h2 : e.kind = .note_off ∨ (e.kind = .note_on ∧ e.velocity = 0))
    (hstack : getStack d e.note = (start, vel) :: rest)
    (hdur : e.tick - start ≤ 0) :
    runEvt d acc e =
      (if rest.isEmpty then removeKey d e.note else setStack d e.note rest,
       acc) := by
  unfold runEvt
  rw [if_neg h1, if_pos h2, hstack]
  dsimp only
  rw [if_pos hdur]

/-- Equation: replay of an off appending the paired note. -/
lemma runEvt_off_append_eq {d : Ongoing} {acc : List NoteEvent} {e : AbsEvent}
    {start vel : Int} {rest : List (Int × Int)}
    (h1 : ¬(e.kind = .note_on ∧ 0 < e.velocity))
    (h2 : e.kind = .note_off ∨ (e.kind = .note_on ∧ e.velocity = 0))
    (hstack : getStack d e.note = (start, vel) :: rest)
    (hdur : ¬e.tick - start ≤ 0) :
    runEvt d acc e =
      (if rest.isEmpty then removeKey d e.note else setStack d e.note rest,
       acc ++ [⟨e.note, start, e.tick - start, vel⟩]) := by
  unfold runEvt
  rw [if_neg h1, if_pos h2, hstack]
  dsimp only
  rw [if_neg hdur]

/-- A replay step for a different pitch does not touch this pitch's
stack, and any note it appends carries the other pitch. -/
lemma runEvt_filter_ne {p : Int} {e : AbsEvent} (hp : e.note ≠ p)
    (d : Ongoing) :
    getStack (runEvt d [] e).1 p = getStack d p ∧
    ((runEvt d [] e).2 = [] ∨
      ∃ n, n.pitch = e.note ∧ (runEvt d [] e).2 = [n]) := by
  by_cases h1 : e.kind = .note_on ∧ 0 < e.velocity
  · rw [runEvt_on_eq h1]
    exact ⟨getStack_setStack_ne d _ hp, Or.inl rfl⟩
  · by_cases h2 : e.kind = .note_off ∨ (e.kind = .note_on ∧ e.velocity = 0)
    · cases hstack : getStack d e.note with
      | nil =>
        rw [runEvt_off_nil_eq h1 h2 hstack]
        exact ⟨rfl, Or.inl rfl⟩
      | cons hd rest =>
        obtain ⟨start, vel⟩ := hd
        by_cases hdur : e.tick - start ≤ 0
        · rw [runEvt_off_drop_eq h1 h2 hstack hdur]
          refine ⟨?_, Or.inl rfl⟩
          dsimp only
          split_ifs
          · exact getStack_removeKey_ne d hp
          · exact getStack_setStack_ne d _ hp
        · rw [runEvt_off_append_eq h1 h2 hstack hdur]
          refine ⟨?_, Or.inr ⟨⟨e.note, start, e.tick - start, vel⟩, rfl, by simp⟩⟩
          dsimp only
          split_ifs
          · exact getStack_removeKey_ne d hp
          · exact getStack_setStack_ne d _ hp
    · rw [runEvt_skip_eq h1 h2]
      exact ⟨rfl, Or.inl rfl⟩

/-- A replay step for this pitch behaves the same over two dicts that
agree on this pitch's stack, and appends only notes of this pitch. -/
lemma runEvt_congr {p : Int} {e : AbsEvent} (hp : e.note = p)
    (d1 d2 : Ongoing) (h : getStack d1 p = getStack d2 p) :
    getStack (runEvt d1 [] e).1 p = getStack (runEvt d2 [] e).1 p ∧
    (runEvt d1 [] e).2 = (runEvt d2 [] e).2 ∧
    ∀ n ∈ (runEvt d1 [] e).2, n.pitch = p := by
  subst hp
  by_cases h1 : e.kind = .note_on ∧ 0 < e.velocity
  · rw [runEvt_on_eq h1, runEvt_on_eq h1]
    refine ⟨?_, rfl, by simp⟩
    rw [getStack_setStack_self, getStack_setStack_self, h]
  · by_cases h2 : e.kind = .note_off ∨ (e.kind = .note_on ∧ e.velocity = 0)
    · cases hstack : getStack d1 e.note with
      | nil =>
        have hstack2 : getStack d2 e.note = [] := by rw [← h, hstack]
        rw [runEvt_off_nil_eq h1 h2 hstack, runEvt_off_nil_eq h1 h2 hstack2]
        exact ⟨h, rfl, by simp⟩
      | cons hd rest =>
        obtain ⟨start, vel⟩ := hd
        have hstack2 : getStack d2 e.note = (start, vel) :: rest := by
          rw [← h, hstack]
        by_cases hdur : e.tick - start ≤ 0
        · rw [runEvt_off_drop_eq h1 h2 hstack hdur,
            runEvt_off_drop_eq h1 h2 hstack2 hdur]
          refine ⟨?_, rfl, by simp⟩
          dsimp only
          split_ifs
          · rw [getStack_removeKey_self, getStack_removeKey_self]
          · rw [getStack_setStack_self, getStack_setStack_self]
        · rw [runEvt_off_append_eq h1 h2 hstack hdur,
            runEvt_off_append_eq h1 h2 hstack2 hdur]
          refine ⟨?_, rfl, ?_⟩
          · dsimp only
            split_ifs
            · rw [getStack_removeKey_self, getStack_removeKey_self]
            · rw [getStack_setStack_self, getStack_setStack_self]
          · intro n hn
            have h3 : n = ⟨e.note, start, e.tick - start, vel⟩ := by
              simpa using hn
            subst h3
            rfl
    · rw [runEvt_skip_eq h1 h2, runEvt_skip_eq h1 h2]
      exact ⟨h, rfl, by simp⟩

/-- Per-pitch decomposition of the replay: over two dicts agreeing on
pitch `p`, the pitch-`p` notes of a full run are exactly the notes of
the run restricted to pitch-`p` events. -/
lemma runEvts_filter (p : Int) : ∀ (es : List AbsEvent) (d1 d2 : Ongoing),
    getStack d1 p = getStack d2 p →
    (runEvts d1 [] es).2.filter (fun n => n.pitch == p) =
      (runEvts d2 [] (es.filter (fun e => e.note == p))).2 ∧
    getStack (runEvts d1 [] es).1 p =
      getStack (runEvts d2 [] (es.filter (fun e => e.note == p))).1 p := by
  intro es
  induction es with
  | nil => intro d1 d2 h; exact ⟨rfl, h⟩
  | cons e es ih =>
    intro d1 d2 h
    rw [runEvts]
    obtain ⟨hs1, ha1⟩ := runEvts_acc es (runEvt d1 [] e).1 (runEvt d1 [] e).2
    by_cases hp : e.note = p
    · have hfc : (e :: es).filter (fun e => e.note == p) =
          e :: es.filter (fun e => e.note == p) :=
        List.filter_cons_of_pos (by simpa using hp)
      rw [hfc, runEvts]
      obtain ⟨hs2, ha2⟩ := runEvts_acc (es.filter (fun e => e.note == p))
        (runEvt d2 [] e).1 (runEvt d2 [] e).2
      obtain ⟨hc1, hc2, hc3⟩ := runEvt_congr hp d1 d2 h
      obtain ⟨hihl, hihr⟩ := ih (runEvt d1 [] e).1 (runEvt d2 [] e).1 hc1
      constructor
      · rw [ha1, ha2, List.filter_append]
        rw [List.filter_eq_self.mpr (fun n hn => by simpa using hc3 n hn)]
        rw [hihl, hc2]
      · rw [hs1, hs2, hihr]
    · have hfc : (e :: es).filter (fun e => e.note == p) =
          es.filter (fun e => e.note == p) :=
        List.filter_cons_of_neg (by simpa using hp)
      rw [hfc]
      obtain ⟨hn1, hn2⟩ := runEvt_filter_ne hp d1
      obtain ⟨hihl, hihr⟩ := ih (runEvt d1 [] e).1 d2 (by rw [hn1, h])
      constructor
      · rw [ha1, List.filter_append, hihl]
        rcases hn2 with h3 | ⟨n, hn, h3⟩
        · rw [h3]
          simp
        · rw [h3]
          have : (List.filter (fun n => n.pitch == p) [n]) = [] := by
            simp [hn, hp]
          rw [this]
          simp
      · rw [hs1, hihr]

/-- Unfolding of the raw per-note events on a cons cell. -/
lemma rawEvents_cons (n : NoteEvent) (l : List NoteEvent) :
    rawEvents (n :: l) =
      ⟨n.start, 1, .note_on, n.pitch, n.velocity⟩ ::
        ⟨n.start + n.duration, 0, .note_off, n.pitch, 0⟩ :: rawEvents l := by
  rw [rawEvents, rawEvents, List.flatMap_cons]
  rfl

/-- Filtering the raw events to one pitch is filtering the notes. -/
lemma rawEvents_filter (p : Int) : ∀ (notes : List NoteEvent),
    (rawEvents notes).filter (fun e => e.note == p) =
      rawEvents (notes.filter (fun n => n.pitch == p)) := by
  intro notes
  induction notes with
  | nil => rfl
  | cons n notes ih =>
    rw [rawEvents_cons]
    by_cases hp : n.pitch = p
    · rw [List.filter_cons_of_pos (by simpa using hp),
        List.filter_cons_of_pos (by simpa using hp),
        List.filter_cons_of_pos (by simpa using hp),
        ih, rawEvents_cons]
    · rw [List.filter_cons_of_neg (by simpa using hp),
        List.filter_cons_of_neg (by simpa using hp),
        List.filter_cons_of_neg (by simpa using hp),
        ih]

/-- Raw events preserve permutation of the source notes. -/
lemma rawEvents_perm {l1 l2 : List NoteEvent} (h : l1.Perm l2) :
    (rawEvents l1).Perm (rawEvents l2) :=
  List.Perm.flatMap_right _ h

/-- Every nonempty list has a member minimizing an integer measure. -/
lemma list_exists_min {α : Type} (f : α → Int) :
    ∀ (l : List α), l ≠ [] → ∃ a ∈ l, ∀ b ∈ l, f a ≤ f b := by
  intro l
  induction l with
  | nil => intro h; exact absurd rfl h
  | cons x rest ih =>
    intro _
    cases rest with
    | nil =>
      refine ⟨x, List.mem_cons_self _ _, ?_⟩
      intro b hb
      have hbx : b = x := by simpa using hb
      subst hbx
      exact le_refl _
    | cons y t =>
      obtain ⟨a, ha, hmin⟩ := ih (by simp)
      by_cases hxa : f x ≤ f a
      · refine ⟨x, List.mem_cons_self _ _, ?_⟩
        intro b hb
        rcases List.mem_cons.mp hb with h | h
        · subst h; exact le_refl _
        · exact le_trans hxa (hmin b h)
      · refine ⟨a, List.mem_cons_of_mem _ ha, ?_⟩
        intro b hb
        rcases List.mem_cons.mp hb with h | h
        · subst h; omega
        · exact hmin b h

/-- The head of a `dropWhile` fails the predicate. -/
lemma dropWhile_head_not {α : Type} (q : α → Bool) (l : List α) {x : α}
    {xs : List α} (h : l.dropWhile q = x :: xs) : q x = false := by
  have h2 := List.head?_dropWhile_not q l
  rw [h] at h2
  simpa using h2

/-- The replay over single-pitch events depends only on that pitch's
stack: two dicts agreeing there produce the same notes and agree there
afterwards. -/
lemma runEvts_congr_p (p : Int) : ∀ (es : List AbsEvent) (d1 d2 : Ongoing),
    (∀ e ∈ es, e.note = p) → getStack d1 p = getStack d2 p →
    (runEvts d1 [] es).2 = (runEvts d2 [] es).2 ∧
    getStack (runEvts d1 [] es).1 p = getStack (runEvts d2 [] es).1 p := by
  intro es
  induction es with
  | nil => intro d1 d2 _ h; exact ⟨rfl, h⟩
  | cons e rest ih =>
    intro d1 d2 hp h
    obtain ⟨hc1, hc2, _⟩ := runEvt_congr (hp e (List.mem_cons_self _ _)) d1 d2 h
    rw [runEvts, runEvts]
    obtain ⟨a1, b1⟩ := runEvts_acc rest (runEvt d1 [] e).1 (runEvt d1 [] e).2
    obtain ⟨a2, b2⟩ := runEvts_acc rest (runEvt d2 [] e).1 (runEvt d2 [] e).2
    obtain ⟨ihl, ihr⟩ := ih (runEvt d1 [] e).1 (runEvt d2 [] e).1
      (fun e2 he2 => hp e2 (List.mem_cons_of_mem _ he2)) hc1
    constructor
    · rw [b1, b2, hc2, ihl]
    · rw [a1, a2, ihr]

/-- Replaying a run of note-ons for one pitch appends no notes and
stacks their `(tick, velocity)` pairs, most recent first. -/
lemma run_ons (p : Int) : ∀ (ons : List AbsEvent) (d : Ongoing),
    (∀ e ∈ ons, e.note = p ∧ e.kind = OutKind.note_on ∧ 0 < e.velocity) →
    (runEvts d [] ons).2 = [] ∧
    getStack (runEvts d [] ons).1 p =
      (ons.reverse.map (fun e => (e.tick, e.velocity))) ++ getStack d p := by
  intro ons
  induction ons with
  | nil => intro d _; exact ⟨rfl, by simp [runEvts]⟩
  | cons e rest ih =>
    intro d h
    obtain ⟨hnote, hkind, hvel⟩ := h e (List.mem_cons_self _ _)
    rw [runEvts, runEvt_on_eq ⟨hkind, hvel⟩]
    dsimp only
    obtain ⟨ih1, ih2⟩ := ih
      (setStack d e.note ((e.tick, e.velocity) :: getStack d e.note))
      (fun e2 he2 => h e2 (List.mem_cons_of_mem _ he2))
    refine ⟨ih1, ?_⟩
    rw [ih2, hnote, getStack_setStack_self, List.reverse_cons, List.map_append]
    simp [List.append_assoc]

/-- The on-event key of every note occurs among the raw event keys. -/
lemma raw_on_key {l : List NoteEvent} {m : NoteEvent} (hm : m ∈ l) :
    ((m.start, (1 : Int)) : Int × Int) ∈ (rawEvents l).map evKey := by
  refine List.mem_map.mpr
    ⟨⟨m.start, 1, .note_on, m.pitch, m.velocity⟩, ?_, rfl⟩
  rw [rawEvents]
  refine List.mem_flatMap.mpr ⟨m, hm, ?_⟩
  exact List.mem_cons_self _ _

/-- The off-event key of every note occurs among the raw event keys. -/
lemma raw_off_key {l : List NoteEvent} {m : NoteEvent} (hm : m ∈ l) :
    ((m.start + m.duration, (0 : Int)) : Int × Int) ∈
      (rawEvents l).map evKey := by
  refine List.mem_map.mpr
    ⟨⟨m.start + m.duration, 0, .note_off, m.pitch, 0⟩, ?_, rfl⟩
  rw [rawEvents]
  refine List.mem_flatMap.mpr ⟨m, hm, ?_⟩
  exact List.mem_cons_of_mem _ (List.mem_cons_self _ _)

/-- Every raw event key is the on key or the off key of some note. -/
lemma key_to_note {l : List NoteEvent} {k : Int × Int}
    (hk : k ∈ (rawEvents l).map evKey) :
    ∃ m ∈ l, k = (m.start, (1 : Int)) ∨
      k = (m.start + m.duration, (0 : Int)) := by
  obtain ⟨e, he, hek⟩ := List.mem_map.mp hk
  obtain ⟨m, hm, hc⟩ := mem_rawEvents he
  rcases hc with h | h <;> subst h
  · exact ⟨m, hm, Or.inl hek.symm⟩
  · exact ⟨m, hm, Or.inr hek.symm⟩

/-- Decomposition of a nonempty sorted single-pitch event stream: a
block of note-ons, then the first note-off, with the structural bounds
the pairing argument needs. -/
lemma sorted_events_decomp (p : Int) (l : List NoteEvent)
    (es : List AbsEvent) (hl : l ≠ []) (hv : ∀ n ∈ l, n.Valid)
    (hshape : ∀ e ∈ es, EvShape p e) (hsort : es.Pairwise eventLE)
    (hkeys : (es.map evKey).Perm ((rawEvents l).map evKey)) :
    ∃ ons2 onY off0 rest, es = ons2 ++ onY :: off0 :: rest ∧
      (∀ e ∈ ons2 ++ [onY], e.note = p ∧ e.kind = OutKind.note_on ∧
        e.order = 1 ∧ 1 ≤ e.velocity ∧ e.velocity ≤ 127) ∧
      off0.note = p ∧ off0.kind = OutKind.note_off ∧ off0.order = 0 ∧
      onY.tick < off0.tick ∧
      (∀ a ∈ ons2, eventLE a onY) ∧ (∀ z ∈ rest, eventLE off0 z) ∧
      (∀ m ∈ l, off0.tick ≤ m.start + m.duration) ∧
      (∀ m ∈ l, m.start < off0.tick → m.start ≤ onY.tick) ∧
      (∃ y0 ∈ l, y0.start = onY.tick) ∧
      (∃ x ∈ l, x.start + x.duration = off0.tick) := by
  have es_key : ∀ k, k ∈ (rawEvents l).map evKey → ∃ e ∈ es, evKey e = k :=
    fun k hk => List.mem_map.mp (hkeys.mem_iff.mpr hk)
  have shape_kind_on : ∀ e ∈ es, (e.kind == OutKind.note_on) = true →
      e.note = p ∧ e.kind = OutKind.note_on ∧ e.order = 1 ∧
        1 ≤ e.velocity ∧ e.velocity ≤ 127 := by
    intro e he hb
    obtain ⟨hn, hsh⟩ := hshape e he
    have hk : e.kind = OutKind.note_on := by simpa using hb
    rcases hsh with ⟨_, ho, hv1, hv2⟩ | ⟨hk2, _⟩
    · exact ⟨hn, hk, ho, hv1, hv2⟩
    · rw [hk] at hk2
      cases hk2
  have shape_kind_off : ∀ e ∈ es, (e.kind == OutKind.note_on) = false →
      e.note = p ∧ e.kind = OutKind.note_off ∧ e.order = 0 := by
    intro e he hb
    obtain ⟨hn, hsh⟩ := hshape e he
    rcases hsh with ⟨hk, _⟩ | ⟨hk, ho⟩
    · rw [hk] at hb
      simp at hb
    · exact ⟨hn, hk, ho⟩
  obtain ⟨m0, hm0⟩ := List.exists_mem_of_ne_nil l hl
  obtain ⟨e2, he2, hk2⟩ := es_key _ (raw_off_key hm0)
  have he2ord : e2.order = 0 := by
    have := congrArg Prod.snd hk2
    simpa [evKey] using this
  have hdec := List.takeWhile_append_dropWhile
    (fun e => e.kind == OutKind.note_on) es
  cases hdrop : List.dropWhile (fun e => e.kind == OutKind.note_on) es with
  | nil =>
    exfalso
    have hes_take : List.takeWhile (fun e => e.kind == OutKind.note_on) es
        = es := by
      conv_rhs => rw [← hdec]
      rw [hdrop, List.append_nil]
    have he2take : e2 ∈ List.takeWhile
        (fun e => e.kind == OutKind.note_on) es := by
      rw [hes_take]
      exact he2
    have h1 := (shape_kind_on e2 he2
      (@List.mem_takeWhile_imp _ (fun e => e.kind == OutKind.note_on)
        es e2 he2take)).2.2.1
    omega
  | cons off0 rest =>
    have hoffbeq : (off0.kind == OutKind.note_on) = false :=
      dropWhile_head_not _ es hdrop
    have hoffes : off0 ∈ es := (List.dropWhile_sublist _).subset
      (by rw [hdrop]; exact List.mem_cons_self _ _)
    obtain ⟨hoffp, hoffkind, hofford⟩ := shape_kind_off off0 hoffes hoffbeq
    have hkoff0 : evKey off0 ∈ (rawEvents l).map evKey :=
      hkeys.mem_iff.mp (List.mem_map_of_mem evKey hoffes)
    obtain ⟨x, hxl, hxc⟩ := key_to_note hkoff0
    have hx : x.start + x.duration = off0.tick := by
      rcases hxc with h | h
      · exfalso
        have := congrArg Prod.snd h
        simp [evKey, hofford] at this
      · have := congrArg Prod.fst h
        simpa [evKey] using this.symm
    have hesdec : List.takeWhile (fun e => e.kind == OutKind.note_on) es ++
        off0 :: rest = es := by
      rw [← hdrop]
      exact hdec
    have honsAllmem : ∀ e ∈ List.takeWhile
        (fun e => e.kind == OutKind.note_on) es,
        e.note = p ∧ e.kind = OutKind.note_on ∧ e.order = 1 ∧
          1 ≤ e.velocity ∧ e.velocity ≤ 127 :=
      fun e he => shape_kind_on e ((List.takeWhile_sublist _).subset he)
        (@List.mem_takeWhile_imp _ (fun e => e.kind == OutKind.note_on)
          es e he)
    have hsort2 : (List.takeWhile (fun e => e.kind == OutKind.note_on) es ++
        off0 :: rest).Pairwise eventLE := by
      rw [hesdec]
      exact hsort
    obtain ⟨hsortOns, hsortDrop, hcross⟩ := List.pairwise_append.mp hsort2
    have hOffRest : ∀ z ∈ rest, eventLE off0 z :=
      (List.pairwise_cons.mp hsortDrop).1
    cases honsnil : List.takeWhile (fun e => e.kind == OutKind.note_on) es with
    | nil =>
      exfalso
      have hxv := hv x hxl
      unfold NoteEvent.Valid at hxv
      obtain ⟨e1, he1, hk1⟩ := es_key _ (raw_on_key hxl)
      have he1ord : e1.order = 1 := by
        have := congrArg Prod.snd hk1
        simpa [evKey] using this
      have he1tick : e1.tick = x.start := by
        have := congrArg Prod.fst hk1
        simpa [evKey] using this
      have hes2 : es = off0 :: rest := by
        rw [← hesdec, honsnil, List.nil_append]
      rw [hes2] at he1
      rcases List.mem_cons.mp he1 with h | h
      · rw [h] at he1ord
        omega
      · have hle := hOffRest e1 h
        unfold eventLE at hle
        omega
    | cons o1 otail =>
      obtain ⟨ons2, onY, hconcat⟩ : ∃ L b, o1 :: otail = L ++ [b] := by
        rcases List.eq_nil_or_concat (o1 :: otail) with h | ⟨L, b, h⟩
        · cases h
        · exact ⟨L, b, by rw [h, List.concat_eq_append]⟩
      have honsAllmem2 : ∀ e ∈ ons2 ++ [onY],
          e.note = p ∧ e.kind = OutKind.note_on ∧ e.order = 1 ∧
            1 ≤ e.velocity ∧ e.velocity ≤ 127 := by
        intro e he
        refine honsAllmem e ?_
        rw [honsnil, hconcat]
        exact he
      have honY : onY ∈ ons2 ++ [onY] :=
        List.mem_append_right _ (List.mem_cons_self _ _)
      obtain ⟨hYp, hYkind, hYord, hYv1, hYv2⟩ := honsAllmem2 onY honY
      have hsortOns2 : (ons2 ++ [onY]).Pairwise eventLE := by
        rw [← hconcat, ← honsnil]
        exact hsortOns
      have hOns2Y : ∀ a ∈ ons2, eventLE a onY := by
        intro a ha
        exact (List.pairwise_append.mp hsortOns2).2.2 a ha onY
          (List.mem_cons_self _ _)
      have hAonsOff : ∀ a ∈ ons2 ++ [onY], eventLE a off0 := by
        intro a ha
        refine hcross a ?_ off0 (List.mem_cons_self _ _)
        rw [honsnil, hconcat]
        exact ha
      have hYoff : onY.tick < off0.tick := by
        have h := hAonsOff onY honY
        unfold eventLE at h
        omega
      have hEndMin : ∀ m ∈ l, off0.tick ≤ m.start + m.duration := by
        intro m hm
        obtain ⟨e3, he3, hk3⟩ := es_key _ (raw_off_key hm)
        have ho : e3.order = 0 := by
          have := congrArg Prod.snd hk3
          simpa [evKey] using this
        have ht : e3.tick = m.start + m.duration := by
          have := congrArg Prod.fst hk3
          simpa [evKey] using this
        rw [← hesdec] at he3
        rcases List.mem_append.mp he3 with h | h
        · have := (honsAllmem e3 h).2.2.1
          omega
        · rcases List.mem_cons.mp h with h | h
          · rw [h] at ht
            omega
          · have hle := hOffRest e3 h
            unfold eventLE at hle
            omega
      have hStartMax : ∀ m ∈ l, m.start < off0.tick → m.start ≤ onY.tick := by
        intro m hm hmlt
        obtain ⟨e1, he1, hk1⟩ := es_key _ (raw_on_key hm)
        have ho : e1.order = 1 := by
          have := congrArg Prod.snd hk1
          simpa [evKey] using this
        have ht : e1.tick = m.start := by
          have := congrArg Prod.fst hk1
          simpa [evKey] using this
        rw [← hesdec, honsnil, hconcat] at he1
        rcases List.mem_append.mp he1 with h | h
        · rcases List.mem_append.mp h with h | h
          · have hle := hOns2Y e1 h
            unfold eventLE at hle
            omega
          · have he1Y : e1 = onY := by simpa using h
            rw [he1Y] at ht
            omega
        · rcases List.mem_cons.mp h with h | h
          · rw [h] at ho
            omega
          · have hle := hOffRest e1 h
            unfold eventLE at hle
            omega
      have hy0 : ∃ y0 ∈ l, y0.start = onY.tick := by
        have honYes : onY ∈ es := by
          rw [← hesdec, honsnil, hconcat]
          exact List.mem_append_left _ honY
        have hkonY : evKey onY ∈ (rawEvents l).map evKey :=
          hkeys.mem_iff.mp (List.mem_map_of_mem evKey honYes)
        obtain ⟨m, hm, hc⟩ := key_to_note hkonY
        rcases hc with h | h
        · have := congrArg Prod.fst h
          exact ⟨m, hm, by simpa [evKey] using this.symm⟩
        · exfalso
          have := congrArg Prod.snd h
          simp [evKey, hYord] at this
      refine ⟨ons2, onY, off0, rest, ?_, honsAllmem2, hoffp, hoffkind,
        hofford, hYoff, hOns2Y, hOffRest, hEndMin, hStartMax, hy0,
        ⟨x, hxl, hx⟩⟩
      rw [← hesdec, honsnil, hconcat, List.append_assoc]
      rfl

/-- The laminar selection: if `t0` is a lower bound of all interval
ends, `sy` an upper bound of all starts below `t0`, some note starts at
`sy`, and some note ends at `t0`, then — intervals being pairwise
non-crossing — some note is exactly `[sy, t0)`. -/
lemma laminar_pick (l : List NoteEvent) (sy t0 : Int)
    (hv : ∀ n ∈ l, n.Valid)
    (hnc : l.Pairwise NonCross)
    (hEnd : ∀ m ∈ l, t0 ≤ m.start + m.duration)
    (hStart : ∀ m ∈ l, m.start < t0 → m.start ≤ sy)
    (hsy : sy < t0)
    (hy0 : ∃ y0 ∈ l, y0.start = sy)
    (hx0 : ∃ x ∈ l, x.start + x.duration = t0) :
    ∃ y ∈ l, y.start = sy ∧ y.start + y.duration = t0 := by
  obtain ⟨y0, hy0l, hy0s⟩ := hy0
  have hSne : l.filter (fun m => m.start == sy) ≠ [] := by
    intro hS
    have hmem : y0 ∈ l.filter (fun m => m.start == sy) :=
      List.mem_filter.mpr ⟨hy0l, by simp [hy0s]⟩
    rw [hS] at hmem
    cases hmem
  obtain ⟨y, hyS, hymin⟩ :=
    list_exists_min (fun m => m.start + m.duration) _ hSne
  have hyl : y ∈ l := List.mem_of_mem_filter hyS
  have hys : y.start = sy := by simpa using List.of_mem_filter hyS
  refine ⟨y, hyl, hys, ?_⟩
  have h1 : t0 ≤ y.start + y.duration := hEnd y hyl
  by_contra hne
  have hlt : t0 < y.start + y.duration := by omega
  obtain ⟨x, hxl, hxE⟩ := hx0
  have hxv := hv x hxl
  unfold NoteEvent.Valid at hxv
  have hxs : x.start < t0 := by omega
  have hxsy : x.start ≤ sy := hStart x hxl hxs
  by_cases heq : x.start = sy
  · have hxS : x ∈ l.filter (fun m => m.start == sy) :=
      List.mem_filter.mpr ⟨hxl, by simp [heq]⟩
    have := hymin x hxS
    omega
  · have hxy : x ≠ y := by
      intro h
      rw [h] at heq
      exact heq hys
    have hsymm : Symmetric NonCross := by
      intro a b h
      unfold NonCross at h ⊢
      tauto
    have hNC := List.Pairwise.forall hsymm hnc hxl hyl hxy
    unfold NonCross at hNC
    omega

/-- Removing the two events of one recovered note from the sorted event
stream leaves the key multiset of the remaining notes. -/
lemma keys_step (l : List NoteEvent) (y : NoteEvent) (hy : y ∈ l)
    (ons2 rest : List AbsEvent) (onY off0 : AbsEvent)
    (hkon : evKey onY = (y.start, 1))
    (hkoff : evKey off0 = (y.start + y.duration, 0))
    (hkeys : ((ons2 ++ onY :: off0 :: rest).map evKey).Perm
      ((rawEvents l).map evKey)) :
    ((ons2 ++ rest).map evKey).Perm ((rawEvents (l.erase y)).map evKey) := by
  have hply := List.perm_cons_erase hy
  have hraw : ((rawEvents l).map evKey).Perm
      ((rawEvents (y :: l.erase y)).map evKey) :=
    (rawEvents_perm hply).map evKey
  rw [rawEvents_cons] at hraw
  simp only [List.map_cons] at hraw
  have hon : evKey (⟨y.start, 1, .note_on, y.pitch, y.velocity⟩ : AbsEvent) =
      (y.start, 1) := rfl
  have hoff : evKey
      (⟨y.start + y.duration, 0, .note_off, y.pitch, 0⟩ : AbsEvent) =
      (y.start + y.duration, 0) := rfl
  rw [hon, hoff, ← hkon, ← hkoff] at hraw
  have pA : ((ons2 ++ onY :: off0 :: rest).map evKey).Perm
      (evKey onY :: evKey off0 :: ((ons2 ++ rest).map evKey)) := by
    simp only [List.map_append, List.map_cons]
    exact List.perm_middle.trans (List.Perm.cons _ List.perm_middle)
  have hchain := (pA.symm.trans hkeys).trans hraw
  exact hchain.cons_inv.cons_inv

/-- Core of the round trip: replaying any `(tick, order)`-sorted
arrangement of the on/off events of a single-pitch family of valid,
pairwise non-crossing notes recovers exactly the multiset of identity
keys, leaves the pitch's stack empty, and emits only in-range
velocities. -/
lemma laminar_run (p : Int) :
    ∀ (N : Nat) (l : List NoteEvent) (es : List AbsEvent) (d : Ongoing),
      l.length ≤ N →
      (∀ n ∈ l, n.pitch = p) → (∀ n ∈ l, n.Valid) →
      l.Pairwise NonCross →
      (∀ e ∈ es, EvShape p e) →
      es.Pairwise eventLE →
      (es.map evKey).Perm ((rawEvents l).map evKey) →
      getStack d p = [] →
      ((runEvts d [] es).2.map NoteEvent.identity_key).Perm
        (l.map NoteEvent.identity_key) ∧
      getStack (runEvts d [] es).1 p = [] ∧
      (∀ n ∈ (runEvts d [] es).2, 0 ≤ n.velocity ∧ n.velocity ≤ 127) := by
  intro N
  induction N with
  | zero =>
    intro l es d hlen _ _ _ _ _ hkeys hd
    have hl : l = [] := List.length_eq_zero.mp (Nat.le_zero.mp hlen)
    subst hl
    have h1 : (es.map evKey).Perm ([] : List (Int × Int)) := hkeys
    have hes : es = [] := by simpa using h1.eq_nil
    subst hes
    refine ⟨List.Perm.refl _, hd, ?_⟩
    intro n hn
    simp [runEvts] at hn
  | succ N ih =>
    intro l es d hlen hp hv hnc hshape hsort hkeys hd
    by_cases hl : l = []
    · subst hl
      have h1 : (es.map evKey).Perm ([] : List (Int × Int)) := hkeys
      have hes : es = [] := by simpa using h1.eq_nil
      subst hes
      refine ⟨List.Perm.refl _, hd, ?_⟩
      intro n hn
      simp [runEvts] at hn
    · obtain ⟨ons2, onY, off0, rest, hes, honsmem, hoffp, hoffkind, hofford,
        hYoff, hOns2Y, hOffRest, hEndMin, hStartMax, hy0, hx0⟩ :=
        sorted_events_decomp p l es hl hv hshape hsort hkeys
      subst hes
      obtain ⟨y, hyl, hys, hyE⟩ := laminar_pick l onY.tick off0.tick hv hnc
        hEndMin hStartMax hYoff hy0 hx0
      obtain ⟨hYp, hYkind, hYord, hYv1, hYv2⟩ :=
        honsmem onY (List.mem_append_right _ (List.mem_cons_self _ _))
      have hkon : evKey onY = (y.start, 1) := by
        unfold evKey
        rw [hYord, hys]
      have hkoff : evKey off0 = (y.start + y.duration, 0) := by
        unfold evKey
        rw [hofford, hyE]
      have hkeys2 := keys_step l y hyl ons2 rest onY off0 hkon hkoff hkeys
      have honsconds : ∀ e ∈ ons2 ++ [onY], e.note = p ∧
          e.kind = OutKind.note_on ∧ 0 < e.velocity := by
        intro e he
        obtain ⟨h1, h2, _, h4, _⟩ := honsmem e he
        exact ⟨h1, h2, by omega⟩
      obtain ⟨hOns2run, hOnsStack⟩ := run_ons p (ons2 ++ [onY]) d honsconds
      rw [hd, List.append_nil, List.reverse_concat, List.map_cons] at hOnsStack
      have hno : ¬(off0.kind = OutKind.note_on ∧ 0 < off0.velocity) := by
        rintro ⟨h, _⟩
        rw [hoffkind] at h
        cases h
      have hstk : getStack (runEvts d [] (ons2 ++ [onY])).1 off0.note =
          (onY.tick, onY.velocity) ::
            ons2.reverse.map (fun e => (e.tick, e.velocity)) := by
        rw [hoffp]
        exact hOnsStack
      have hdur : ¬off0.tick - onY.tick ≤ 0 := by omega
      have hrun : runEvts d [] ((ons2 ++ [onY]) ++ off0 :: rest) =
          runEvts
            (if (ons2.reverse.map (fun e => (e.tick, e.velocity))).isEmpty
              then removeKey (runEvts d [] (ons2 ++ [onY])).1 off0.note
              else setStack (runEvts d [] (ons2 ++ [onY])).1 off0.note
                (ons2.reverse.map (fun e => (e.tick, e.velocity))))
            [⟨off0.note, onY.tick, off0.tick - onY.tick, onY.velocity⟩]
            rest := by
        rw [runEvts_append, hOns2run, runEvts,
          runEvt_off_append_eq hno (Or.inl hoffkind) hstk hdur]
        rfl
      obtain ⟨D2, hD2run, hD2stack⟩ : ∃ D2,
          runEvts d [] ((ons2 ++ [onY]) ++ off0 :: rest) =
            runEvts D2 [⟨off0.note, onY.tick, off0.tick - onY.tick,
              onY.velocity⟩] rest ∧
          getStack D2 p =
            ons2.reverse.map (fun e => (e.tick, e.velocity)) := by
        refine ⟨_, hrun, ?_⟩
        cases hS : ons2.reverse.map (fun e => (e.tick, e.velocity)) with
        | nil =>
          rw [if_pos List.isEmpty_nil, hoffp]
          exact getStack_removeKey_self _ p
        | cons a t =>
          rw [if_neg (by simp), hoffp]
          exact getStack_setStack_self _ p _
      have hacc := runEvts_acc rest D2
        [⟨off0.note, onY.tick, off0.tick - onY.tick, onY.velocity⟩]
      obtain ⟨hOns2run2, hOns2Stack2⟩ := run_ons p ons2 d
        (fun e he => honsconds e (List.mem_append_left _ he))
      rw [hd, List.append_nil] at hOns2Stack2
      have hsplit2 : runEvts d [] (ons2 ++ rest) =
          runEvts (runEvts d [] ons2).1 [] rest := by
        rw [runEvts_append, hOns2run2]
      have hrestmem : ∀ e ∈ rest, e.note = p := by
        intro e he
        refine (hshape e ?_).1
        exact List.mem_append_right _ (List.mem_cons_of_mem _
          (List.mem_cons_of_mem _ he))
      obtain ⟨hcg2, hcg1⟩ := runEvts_congr_p p rest (runEvts d [] ons2).1 D2
        hrestmem (by rw [hOns2Stack2, hD2stack])
      have hsub : (ons2 ++ rest).Sublist (ons2 ++ onY :: off0 :: rest) :=
        List.Sublist.append_left
          ((List.sublist_cons_self off0 rest).trans
            (List.sublist_cons_self onY (off0 :: rest))) _
      have hlen2 : (l.erase y).length ≤ N := by
        rw [List.length_erase_of_mem hyl]
        have hpos := List.length_pos.mpr hl
        omega
      have herasesub := List.erase_sublist y l
      obtain ⟨ihperm, ihstack, ihvel⟩ := ih (l.erase y) (ons2 ++ rest) d hlen2
        (fun n hn => hp n (herasesub.subset hn))
        (fun n hn => hv n (herasesub.subset hn))
        (List.Pairwise.sublist herasesub hnc)
        (fun e he => hshape e (hsub.subset he))
        (List.Pairwise.sublist hsub hsort)
        hkeys2 hd
      have hkeynote : (⟨off0.note, onY.tick, off0.tick - onY.tick,
          onY.velocity⟩ : NoteEvent).identity_key = y.identity_key := by
        unfold NoteEvent.identity_key
        dsimp only
        rw [hoffp, ← hp y hyl, ← hys]
        have h3 : off0.tick - y.start = y.duration := by omega
        rw [h3]
      have hply := List.perm_cons_erase hyl
      have hlmap : (l.map NoteEvent.identity_key).Perm
          (y.identity_key :: (l.erase y).map NoteEvent.identity_key) := by
        have h5 := hply.map NoteEvent.identity_key
        simpa using h5
      have hform : ons2 ++ onY :: off0 :: rest =
          (ons2 ++ [onY]) ++ off0 :: rest := by
        simp
      have hgoalrw : runEvts d [] (ons2 ++ onY :: off0 :: rest) =
          runEvts D2 [⟨off0.note, onY.tick, off0.tick - onY.tick,
            onY.velocity⟩] rest := by
        rw [hform]
        exact hD2run
      have hKeq : (runEvts D2 [] rest).2 =
          (runEvts d [] (ons2 ++ rest)).2 := by
        rw [hsplit2]
        exact hcg2.symm
      refine ⟨?_, ?_, ?_⟩
      · rw [hgoalrw, hacc.2, List.singleton_append, List.map_cons, hkeynote,
          hKeq]
        exact (List.Perm.cons _ ihperm).trans hlmap.symm
      · rw [hgoalrw, hacc.1]
        have hstkeq : getStack (runEvts D2 [] rest).1 p =
            getStack (runEvts d [] (ons2 ++ rest)).1 p := by
          rw [hsplit2]
          exact hcg1.symm
        rw [hstkeq]
        exact ihstack
      · rw [hgoalrw]
        intro n hn
        rw [hacc.2] at hn
        rcases List.mem_append.mp hn with h | h
        · have hn2 : n = ⟨off0.note, onY.tick, off0.tick - onY.tick,
              onY.velocity⟩ := by simpa using h
          subst hn2
          dsimp only
          omega
        · have hn2 : n ∈ (runEvts d [] (ons2 ++ rest)).2 := by
            rw [hsplit2, hcg2]
            exact h
          exact ihvel n hn2

/-- Key-set membership. -/
lemma mem_keySet {k : Int × Int × Int} {l : List NoteEvent} :
    k ∈ keySet l ↔ ∃ n ∈ l, n.identity_key = k := by
  simp [keySet]

/-- The track loop on the trailing end-of-track meta message: ignored
type, only the tick advances. -/
lemma processTrack_eot (st : ExtractState) :
    processTrack st [outMsgToMsg ⟨.end_of_track, 0, 0, 0⟩] =
      some ⟨st.tick + 0, st.ongoing, st.notes⟩ := by
  rw [processTrack, processMsg_skip_eq ?h1 ?h2]
  case h1 =>
    rintro ⟨h, _⟩
    cases h
  case h2 =>
    rintro (h | ⟨h, _⟩) <;> cases h
  rfl

/-- The track loop over a concatenation of message lists. -/
lemma processTrack_append : ∀ (xs ys : List Msg) (st : ExtractState),
    processTrack st (xs ++ ys) =
      match processTrack st xs with
      | none => none
      | some st2 => processTrack st2 ys := by
  intro xs
  induction xs with
  | nil => intro ys st; rfl
  | cons m xs ih =>
    intro ys st
    rw [List.cons_append, processTrack, processTrack]
    cases processMsg st m with
    | none => rfl
    | some st2 => exact ih ys st2

/-- Per-pitch application of the laminar replay: the replayed notes of
one pitch carry the same identity-key multiset as the source notes of
that pitch, with in-range velocities. -/
lemma laminar_extract (notes : List NoteEvent) (p : Int)
    (hv : ∀ n ∈ notes, n.Valid) (hvel : ∀ n ∈ notes, 1 ≤ n.velocity)
    (hnc : SamePitchNonCrossing notes) :
    ((((runEvts [] [] (note_events_to_messages notes)).2.filter
        (fun n => n.pitch == p)).map NoteEvent.identity_key).Perm
      ((notes.filter (fun n => n.pitch == p)).map NoteEvent.identity_key)) ∧
    (∀ n ∈ (runEvts [] [] (note_events_to_messages notes)).2.filter
        (fun n => n.pitch == p), 0 ≤ n.velocity ∧ n.velocity ≤ 127) := by
  obtain ⟨hfilter, _⟩ := runEvts_filter p (note_events_to_messages notes)
    [] [] rfl
  have hPsub : ∀ n ∈ notes.filter (fun n => n.pitch == p), n ∈ notes :=
    fun n hn => List.mem_of_mem_filter hn
  have hPp : ∀ n ∈ notes.filter (fun n => n.pitch == p), n.pitch = p := by
    intro n hn
    simpa using List.of_mem_filter hn
  have hnc2 : (notes.filter (fun n => n.pitch == p)).Pairwise NonCross := by
    have h1 : (notes.filter (fun n => n.pitch == p)).Pairwise
        (fun a b => a.pitch = b.pitch → NonCross a b) :=
      List.Pairwise.filter _ hnc
    refine List.Pairwise.imp_of_mem ?_ h1
    intro a b ha hb h
    exact h ((hPp a ha).trans (hPp b hb).symm)
  have hshape : ∀ e ∈ (note_events_to_messages notes).filter
      (fun e => e.note == p), EvShape p e := by
    intro e he
    have he1 : e ∈ note_events_to_messages notes := List.mem_of_mem_filter he
    have hep : e.note = p := by simpa using List.of_mem_filter he
    have he2 : e ∈ rawEvents notes := by
      rw [note_events_to_messages] at he1
      exact (List.mem_insertionSort eventLE).mp he1
    obtain ⟨n, hn, hcase⟩ := mem_rawEvents he2
    obtain ⟨-, -, -, -, -, hv6⟩ := hv n hn
    have hv1 := hvel n hn
    rcases hcase with h1 | h1 <;> subst h1
    · exact ⟨hep, Or.inl ⟨rfl, rfl, hv1, hv6⟩⟩
    · exact ⟨hep, Or.inr ⟨rfl, rfl⟩⟩
  have hsort : ((note_events_to_messages notes).filter
      (fun e => e.note == p)).Pairwise eventLE := by
    have h1 : (note_events_to_messages notes).Pairwise eventLE := by
      rw [note_events_to_messages]
      exact List.sorted_insertionSort eventLE (rawEvents notes)
    exact List.Pairwise.filter _ h1
  have hkeys : (((note_events_to_messages notes).filter
      (fun e => e.note == p)).map evKey).Perm
      ((rawEvents (notes.filter (fun n => n.pitch == p))).map evKey) := by
    have h1 : (note_events_to_messages notes).Perm (rawEvents notes) := by
      rw [note_events_to_messages]
      exact List.perm_insertionSort eventLE (rawEvents notes)
    have h2 := h1.filter (fun e => e.note == p)
    rw [rawEvents_filter] at h2
    exact h2.map evKey
  obtain ⟨hperm, -, hvelb⟩ := laminar_run p
    (notes.filter (fun n => n.pitch == p)).length
    (notes.filter (fun n => n.pitch == p))
    ((note_events_to_messages notes).filter (fun e => e.note == p))
    [] (le_refl _) hPp (fun n hn => hv n (hPsub n hn)) hnc2 hshape hsort
    hkeys rfl
  rw [hfilter]
  exact ⟨hperm, hvelb⟩

/-- Every note replayed from a valid laminar collection is itself valid. -/
lemma laminar_extract_valid (notes : List NoteEvent)
    (hv : ∀ n ∈ notes, n.Valid) (hvel : ∀ n ∈ notes, 1 ≤ n.velocity)
    (hnc : SamePitchNonCrossing notes) :
    ∀ n ∈ (runEvts [] [] (note_events_to_messages notes)).2, n.Valid := by
  intro n hn
  obtain ⟨hperm, hvelb⟩ := laminar_extract notes n.pitch hv hvel hnc
  have hnf : n ∈ (runEvts [] [] (note_events_to_messages notes)).2.filter
      (fun m => m.pitch == n.pitch) :=
    List.mem_filter.mpr ⟨hn, by simp⟩
  have hk : n.identity_key ∈ (notes.filter
      (fun m => m.pitch == n.pitch)).map NoteEvent.identity_key :=
    hperm.subset (List.mem_map_of_mem _ hnf)
  obtain ⟨m, hm, hkey⟩ := List.mem_map.mp hk
  obtain ⟨hm1, hm2, hm3, hm4, -, -⟩ := hv m (List.mem_of_mem_filter hm)
  obtain ⟨hvb1, hvb2⟩ := hvelb n hnf
  have hkey2 : m.pitch = n.pitch ∧ m.start = n.start ∧
      m.duration = n.duration := by
    unfold NoteEvent.identity_key at hkey
    simpa [Prod.ext_iff] using hkey
  obtain ⟨hk1, hk2, hk3⟩ := hkey2
  exact ⟨by omega, by omega, by omega, by omega, hvb1, hvb2⟩

/-- The replayed notes of a valid laminar collection carry exactly the
original identity-key set. -/
lemma laminar_keySet (notes : List NoteEvent)
    (hv : ∀ n ∈ notes, n.Valid) (hvel : ∀ n ∈ notes, 1 ≤ n.velocity)
    (hnc : SamePitchNonCrossing notes) :
    keySet (runEvts [] [] (note_events_to_messages notes)).2 =
      keySet notes := by
  apply Finset.ext
  intro k
  rw [mem_keySet, mem_keySet]
  constructor
  · rintro ⟨n, hn, hkey⟩
    obtain ⟨hperm, -⟩ := laminar_extract notes n.pitch hv hvel hnc
    have hnf : n ∈ (runEvts [] [] (note_events_to_messages notes)).2.filter
        (fun m => m.pitch == n.pitch) :=
      List.mem_filter.mpr ⟨hn, by simp⟩
    have hk : k ∈ (notes.filter
        (fun m => m.pitch == n.pitch)).map NoteEvent.identity_key := by
      rw [← hkey]
      exact hperm.subset (List.mem_map_of_mem _ hnf)
    obtain ⟨m, hm, hkey2⟩ := List.mem_map.mp hk
    exact ⟨m, List.mem_of_mem_filter hm, hkey2⟩
  · rintro ⟨n, hn, hkey⟩
    obtain ⟨hperm, -⟩ := laminar_extract notes n.pitch hv hvel hnc
    have hnf : n ∈ notes.filter (fun m => m.pitch == n.pitch) :=
      List.mem_filter.mpr ⟨hn, by simp⟩
    have hk : k ∈ ((runEvts [] [] (note_events_to_messages notes)).2.filter
        (fun m => m.pitch == n.pitch)).map NoteEvent.identity_key := by
      rw [← hkey]
      exact hperm.symm.subset (List.mem_map_of_mem _ hnf)
    obtain ⟨m, hm, hkey2⟩ := List.mem_map.mp hk
    exact ⟨m, List.mem_of_mem_filter hm, hkey2⟩

/-- C3 (amended): for every collection of NoteEvents in which every
velocity is at least 1 and no two same-pitch notes have crossing
(partially overlapping, non-nested) tick intervals, extracting notes
from the MIDI file produced by encoding the collection recovers exactly
the same set of (pitch, start, duration) identity keys as the original
collection.  Disjoint and nested same-pitch overlaps are covered; only
the two counterexample phenomena are excluded (a velocity-0 note, whose
note_on is read back as a note-off, and a crossing same-pitch overlap,
which the LIFO stack re-pairs). -/
theorem round_trip_identity_keys (notes : List NoteEvent)
    (hv : ∀ n ∈ notes, n.Valid) (hvel : ∀ n ∈ notes, 1 ≤ n.velocity)
    (hnc : SamePitchNonCrossing notes) :
    ∃ l, roundTrip notes = some l ∧ keySet l = keySet notes := by
  have hvalN := laminar_extract_valid notes hv hvel hnc
  have hvalN2 : ∀ n ∈ (runEvts (⟨0, [], []⟩ : ExtractState).ongoing []
      (note_events_to_messages notes)).2, n.Valid := hvalN
  obtain ⟨t, htrack⟩ := processTrack_deltaEncode
    (note_events_to_messages notes) ⟨0, [], []⟩ hvalN2
  dsimp only at htrack
  have hfull : processTrack ⟨0, [], []⟩
      ((notes_to_midi notes).map outMsgToMsg) =
      some ⟨t + 0, (runEvts [] [] (note_events_to_messages notes)).1,
        (runEvts [] [] (note_events_to_messages notes)).2⟩ := by
    rw [notes_to_midi, List.map_append, processTrack_append, htrack]
    exact processTrack_eot
      ⟨t, (runEvts [] [] (note_events_to_messages notes)).1,
        (runEvts [] [] (note_events_to_messages notes)).2⟩
  have hext : extract_notes [(notes_to_midi notes).map outMsgToMsg] =
      some (((runEvts [] [] (note_events_to_messages notes)).2).insertionSort
        startLE) := by
    rw [extract_notes, extractAll, hfull]
    simp [extractAll]
  refine ⟨((runEvts [] [] (note_events_to_messages notes)).2).insertionSort
    startLE, ?_, ?_⟩
  · rw [roundTrip]
    exact hext
  · have hks : keySet (((runEvts [] []
        (note_events_to_messages notes)).2).insertionSort startLE) =
        keySet (runEvts [] [] (note_events_to_messages notes)).2 := by
      unfold keySet
      exact List.toFinset_eq_of_perm _ _
        (List.Perm.map NoteEvent.identity_key
          (List.perm_insertionSort startLE
            (runEvts [] [] (note_events_to_messages notes)).2))
    rw [hks]
    exact laminar_keySet notes hv hvel hnc

/-- C3 witness: a valid collection containing a nested same-pitch overlap
(pitch 60 over ticks [0,30) and [10,20)) together with an overlapping
note of another pitch; the amended round trip holds on it. -/
theorem round_trip_identity_keys_witness :
    ∃ l, roundTrip [⟨60, 0, 30, 10⟩, ⟨60, 10, 10, 20⟩, ⟨62, 5, 40, 80⟩] =
        some l ∧
      keySet l =
        keySet [⟨60, 0, 30, 10⟩, ⟨60, 10, 10, 20⟩, ⟨62, 5, 40, 80⟩] :=
  round_trip_identity_keys _ (by decide) (by decide) (by decide)

end MidiDiff
